import Mathlib

/-!
Verification development for `MCEq/data.py`.

The module manages tabulated interaction/decay yield matrices, hadron-air
cross-sections and per-particle transport-regime classification.  The
definitions below are shallow embeddings of the corresponding Python
functions; numpy floating-point values are modelled by exact rationals
extended with signed infinities and a NaN element, so that the
division-by-zero and `np.inf` code paths of the source are represented
faithfully.
-/

set_option autoImplicit false
set_option maxRecDepth 3000

/-! Kernel-reducible rational arithmetic.  The library operations on `ℚ` are
`@[irreducible]`, which blocks evaluation of concrete instances; the wrappers
below are definitionally transparent and provably equal to the library
operations. -/

/-- Transparent addition on `ℚ` (equal to `+` by `qadd_eq`). -/
def qadd (a b : ℚ) : ℚ := mkRat (a.num * b.den + b.num * a.den) (a.den * b.den)

/-- Transparent subtraction on `ℚ` (equal to `-` by `qsub_eq`). -/
def qsub (a b : ℚ) : ℚ := mkRat (a.num * b.den - b.num * a.den) (a.den * b.den)

/-- Transparent multiplication on `ℚ` (equal to `*` by `qmul_eq`). -/
def qmul (a b : ℚ) : ℚ :=
  Rat.normalize (a.num * b.num) (a.den * b.den) (Nat.mul_ne_zero a.den_nz b.den_nz)

/-- Transparent division on `ℚ` (equal to `/` by `qdiv_eq`). -/
def qdiv (a b : ℚ) : ℚ := Rat.divInt (a.num * b.den) (a.den * b.num)

theorem qadd_eq (a b : ℚ) : qadd a b = a + b := (Rat.add_def' a b).symm

theorem qsub_eq (a b : ℚ) : qsub a b = a - b := (Rat.sub_def' a b).symm

theorem qmul_eq (a b : ℚ) : qmul a b = a * b := (Rat.mul_def a b).symm

theorem qdiv_eq (a b : ℚ) : qdiv a b = a / b := by
  by_cases hb : b.num = 0
  · rw [Rat.num_eq_zero.mp hb, div_zero]
    simp [qdiv, hb]
  · conv_rhs => rw [Rat.div_def, Rat.inv_def, ← Rat.num_divInt_den a]
    rw [Rat.divInt_mul_divInt _ _ (Int.natCast_ne_zero.mpr a.den_nz) hb]
    rfl

/-- Model of a numpy float64 value: a finite rational, `+inf`, `-inf` or NaN.
Rounding is idealised (rationals are exact) but the special values and their
comparison/arithmetic semantics follow IEEE-754 as numpy implements it. -/
inductive V where
  | fin : ℚ → V
  | pinf : V
  | ninf : V
  | nan : V
deriving DecidableEq

/-- IEEE `<` comparison: NaN compares false with everything. -/
def vlt : V → V → Bool
  | V.fin a, V.fin b => decide (a < b)
  | V.fin _, V.pinf => true
  | V.ninf, V.fin _ => true
  | V.ninf, V.pinf => true
  | _, _ => false

/-- IEEE `≤` comparison: NaN compares false with everything. -/
def vle : V → V → Bool
  | V.fin a, V.fin b => decide (a ≤ b)
  | V.fin _, V.pinf => true
  | V.ninf, V.fin _ => true
  | V.ninf, V.pinf => true
  | V.ninf, V.ninf => true
  | V.pinf, V.pinf => true
  | _, _ => false

/-- IEEE multiplication on the model values (`0 * inf = NaN`). -/
def npMul : V → V → V
  | V.fin a, V.fin b => V.fin (qmul a b)
  | V.fin a, V.pinf => if a = 0 then V.nan else if 0 < a then V.pinf else V.ninf
  | V.fin a, V.ninf => if a = 0 then V.nan else if 0 < a then V.ninf else V.pinf
  | V.pinf, V.fin b => if b = 0 then V.nan else if 0 < b then V.pinf else V.ninf
  | V.ninf, V.fin b => if b = 0 then V.nan else if 0 < b then V.ninf else V.pinf
  | V.pinf, V.pinf => V.pinf
  | V.pinf, V.ninf => V.ninf
  | V.ninf, V.pinf => V.ninf
  | V.ninf, V.ninf => V.pinf
  | _, _ => V.nan

/-- IEEE division as numpy performs it on arrays: finite/0 gives a signed
infinity (`0/0` gives NaN), finite/inf gives 0. -/
def npDiv : V → V → V
  | V.fin a, V.fin b =>
      if b = 0 then (if a = 0 then V.nan else if 0 < a then V.pinf else V.ninf)
      else V.fin (qdiv a b)
  | V.fin _, V.pinf => V.fin 0
  | V.fin _, V.ninf => V.fin 0
  | V.pinf, V.fin b => if 0 ≤ b then V.pinf else V.ninf
  | V.ninf, V.fin b => if 0 ≤ b then V.ninf else V.pinf
  | _, _ => V.nan

/-- Python scalar float division: raises `ZeroDivisionError` (modelled as
`none`) when the divisor is exactly zero, otherwise behaves like IEEE. -/
def pyDiv (a b : V) : Option V :=
  if b = V.fin 0 then none else some (npDiv a b)

/-- Binary maximum with NaN propagation, as `np.max` reduces an array. -/
def vmaxOp (a b : V) : V :=
  if a = V.nan ∨ b = V.nan then V.nan else if vlt a b then b else a

/-- Binary minimum with NaN propagation, as `np.min` reduces an array. -/
def vminOp (a b : V) : V :=
  if a = V.nan ∨ b = V.nan then V.nan else if vlt b a then b else a

/-- Model of `np.max` over a 1-d array; `none` models the `ValueError` raised
on an empty array. -/
def vmax : List V → Option V
  | [] => none
  | x :: xs => some (xs.foldl vmaxOp x)

/-- Model of `np.min` over a 1-d array; `none` models the `ValueError` raised
on an empty array. -/
def vmin : List V → Option V
  | [] => none
  | x :: xs => some (xs.foldl vminOp x)

/-- Model of `np.where(cond)[0][0]`: the first index satisfying the predicate,
`none` when the index array is empty (so that a subsequent `[0]` raises). -/
def firstIdx (f : V → Bool) : List V → Option ℕ
  | [] => none
  | x :: xs => if f x then some 0 else (firstIdx f xs).map (· + 1)

theorem vlt_ne_nan {a b : V} (h : vlt a b = true) : a ≠ V.nan ∧ b ≠ V.nan := by
  cases a <;> cases b <;> simp_all [vlt]

theorem vle_ne_nan {a b : V} (h : vle a b = true) : a ≠ V.nan ∧ b ≠ V.nan := by
  cases a <;> cases b <;> simp_all [vle]

theorem not_vlt_iff_vle {a b : V} (ha : a ≠ V.nan) (hb : b ≠ V.nan) :
    vlt a b = false ↔ vle b a = true := by
  cases a <;> cases b <;> simp_all [vlt, vle, not_lt]

theorem vle_refl {a : V} (ha : a ≠ V.nan) : vle a a = true := by
  cases a <;> simp_all [vle]

theorem vle_of_vlt {a b : V} (h : vlt a b = true) : vle a b = true := by
  cases a <;> cases b <;> simp_all [vlt, vle] <;> exact le_of_lt h

theorem vle_trans {a b c : V} (h1 : vle a b = true) (h2 : vle b c = true) :
    vle a c = true := by
  cases a <;> cases b <;> cases c <;> simp_all [vle] <;> exact le_trans h1 h2

theorem vlt_of_vlt_of_vle {a b c : V} (h1 : vlt a b = true) (h2 : vle b c = true) :
    vlt a c = true := by
  cases a <;> cases b <;> cases c <;> simp_all [vlt, vle] <;> exact lt_of_lt_of_le h1 h2

theorem not_vlt_of_vle {a b : V} (h : vle a b = true) : vlt b a = false := by
  cases a <;> cases b <;> simp_all [vle, vlt, not_lt]

theorem vmaxOp_choice {a b : V} (ha : a ≠ V.nan) (hb : b ≠ V.nan) :
    vmaxOp a b = a ∨ vmaxOp a b = b := by
  unfold vmaxOp
  rw [if_neg (by tauto)]
  split
  · exact Or.inr rfl
  · exact Or.inl rfl

theorem vminOp_choice {a b : V} (ha : a ≠ V.nan) (hb : b ≠ V.nan) :
    vminOp a b = a ∨ vminOp a b = b := by
  unfold vminOp
  rw [if_neg (by tauto)]
  split
  · exact Or.inr rfl
  · exact Or.inl rfl

theorem vle_vmaxOp_left {a b : V} (ha : a ≠ V.nan) (hb : b ≠ V.nan) :
    vle a (vmaxOp a b) = true := by
  unfold vmaxOp
  rw [if_neg (by tauto)]
  by_cases h : vlt a b = true
  · rw [if_pos h]; exact vle_of_vlt h
  · rw [if_neg h]; exact vle_refl ha

theorem vle_vmaxOp_right {a b : V} (ha : a ≠ V.nan) (hb : b ≠ V.nan) :
    vle b (vmaxOp a b) = true := by
  unfold vmaxOp
  rw [if_neg (by tauto)]
  by_cases h : vlt a b = true
  · rw [if_pos h]; exact vle_refl hb
  · rw [if_neg h]
    exact (not_vlt_iff_vle ha hb).mp (Bool.of_not_eq_true h)

theorem vminOp_vle_left {a b : V} (ha : a ≠ V.nan) (hb : b ≠ V.nan) :
    vle (vminOp a b) a = true := by
  unfold vminOp
  rw [if_neg (by tauto)]
  by_cases h : vlt b a = true
  · rw [if_pos h]; exact vle_of_vlt h
  · rw [if_neg h]; exact vle_refl ha

theorem vminOp_vle_right {a b : V} (ha : a ≠ V.nan) (hb : b ≠ V.nan) :
    vle (vminOp a b) b = true := by
  unfold vminOp
  rw [if_neg (by tauto)]
  by_cases h : vlt b a = true
  · rw [if_pos h]; exact vle_refl hb
  · rw [if_neg h]
    exact (not_vlt_iff_vle hb ha).mp (Bool.of_not_eq_true h)

theorem vmax_spec (l : List V) (hne : l ≠ []) (hnn : ∀ x ∈ l, x ≠ V.nan) :
    ∃ m, vmax l = some m ∧ m ∈ l ∧ ∀ x ∈ l, vle x m = true := by
  match l with
  | [] => exact absurd rfl hne
  | x :: xs =>
    clear hne
    induction xs generalizing x with
    | nil =>
      refine ⟨x, rfl, List.mem_singleton.mpr rfl, ?_⟩
      intro y hy
      rw [List.mem_singleton.mp hy]
      exact vle_refl (hnn x (List.mem_singleton.mpr rfl))
    | cons y ys ih =>
      have hx : x ≠ V.nan := hnn x (by simp)
      have hy : y ≠ V.nan := hnn y (by simp)
      have hxy : vmaxOp x y ≠ V.nan := by
        rcases vmaxOp_choice hx hy with h | h <;> rw [h] <;> assumption
      have hnn' : ∀ z ∈ vmaxOp x y :: ys, z ≠ V.nan := by
        intro z hz
        rcases List.mem_cons.mp hz with h | h
        · rw [h]; exact hxy
        · exact hnn z (by simp [h])
      obtain ⟨m, hm, hmem, hub⟩ := ih (vmaxOp x y) hnn'
      refine ⟨m, ?_, ?_, ?_⟩
      · simpa [vmax, List.foldl] using hm
      · rcases List.mem_cons.mp hmem with h | h
        · rcases vmaxOp_choice hx hy with h2 | h2 <;> rw [h, h2] <;> simp
        · simp [h]
      · intro z hz
        have hbase : vle (vmaxOp x y) m = true := hub _ (by simp)
        rcases List.mem_cons.mp hz with h | h
        · rw [h]; exact vle_trans (vle_vmaxOp_left hx hy) hbase
        · rcases List.mem_cons.mp h with h2 | h2
          · rw [h2]; exact vle_trans (vle_vmaxOp_right hx hy) hbase
          · exact hub z (by simp [h2])

theorem vmin_spec (l : List V) (hne : l ≠ []) (hnn : ∀ x ∈ l, x ≠ V.nan) :
    ∃ m, vmin l = some m ∧ m ∈ l ∧ ∀ x ∈ l, vle m x = true := by
  match l with
  | [] => exact absurd rfl hne
  | x :: xs =>
    clear hne
    induction xs generalizing x with
    | nil =>
      refine ⟨x, rfl, List.mem_singleton.mpr rfl, ?_⟩
      intro y hy
      rw [List.mem_singleton.mp hy]
      exact vle_refl (hnn x (List.mem_singleton.mpr rfl))
    | cons y ys ih =>
      have hx : x ≠ V.nan := hnn x (by simp)
      have hy : y ≠ V.nan := hnn y (by simp)
      have hxy : vminOp x y ≠ V.nan := by
        rcases vminOp_choice hx hy with h | h <;> rw [h] <;> assumption
      have hnn' : ∀ z ∈ vminOp x y :: ys, z ≠ V.nan := by
        intro z hz
        rcases List.mem_cons.mp hz with h | h
        · rw [h]; exact hxy
        · exact hnn z (by simp [h])
      obtain ⟨m, hm, hmem, hlb⟩ := ih (vminOp x y) hnn'
      refine ⟨m, ?_, ?_, ?_⟩
      · simpa [vmin, List.foldl] using hm
      · rcases List.mem_cons.mp hmem with h | h
        · rcases vminOp_choice hx hy with h2 | h2 <;> rw [h, h2] <;> simp
        · simp [h]
      · intro z hz
        have hbase : vle m (vminOp x y) = true := hlb _ (by simp)
        rcases List.mem_cons.mp hz with h | h
        · rw [h]; exact vle_trans hbase (vminOp_vle_left hx hy)
        · rcases List.mem_cons.mp h with h2 | h2
          · rw [h2]; exact vle_trans hbase (vminOp_vle_right hx hy)
          · exact hlb z (by simp [h2])

theorem firstIdx_eq_none {f : V → Bool} {l : List V} (h : ∀ x ∈ l, f x = false) :
    firstIdx f l = none := by
  induction l with
  | nil => rfl
  | cons x xs ih =>
    have hx := h x (by simp)
    simp [firstIdx, hx]
    exact ih fun y hy => h y (by simp [hy])

theorem firstIdx_some_spec {f : V → Bool} {l : List V} {k : ℕ}
    (h : firstIdx f l = some k) : ∃ x, l.get? k = some x ∧ f x = true := by
  induction l generalizing k with
  | nil => simp [firstIdx] at h
  | cons y ys ih =>
    by_cases hy : f y = true
    · simp [firstIdx, hy] at h
      subst h
      exact ⟨y, rfl, hy⟩
    · simp [firstIdx, Bool.of_not_eq_true hy] at h
      obtain ⟨k0, hk0, hkk⟩ := h
      obtain ⟨x, hx, hfx⟩ := ih hk0
      exact ⟨x, by simpa [← hkk] using hx, hfx⟩

/-- State of an `NCEParticle` as far as `calculate_mixing_energy` reads and
writes it.  `mass`/`ctau` model `pythia_db.mass`/`pythia_db.ctau`: `none`
means the lookup raises (caught by the bare `except` in the source), `some`
the returned float.  `cs` is the cross-section curve over the energy grid
returned by `self.cs.get_cs(self.pdgid)` (a scalar result of `get_cs`
broadcasts to a constant curve under `np.ones(d) *`). -/
structure NCEParticle where
  pdgid : ℤ
  mass : Option V
  ctau : Option V
  cs : List ℚ
  d : ℕ
  E_mix : V
  mix_idx : ℕ
  is_mixed : Bool
  is_resonance : Bool
deriving DecidableEq

/-- `<A> * m_proton` in grams: `14.5 * 1.672621 * 1e-24`. -/
def m_air : ℚ := Rat.divInt 48506009 2000000000000000000000000000000

/-- Typical air density at the surface used in `calculate_mixing_energy`:
`1.240e-03`. -/
def rho_surface : ℚ := Rat.divInt 31 25000

/-- `NCEParticle.inverse_decay_length`: `mass / ctau / E` with the entries
below `mix_idx` zeroed; any exception inside the `try` (failing lookup, or
`ZeroDivisionError` from `ctau = 0`) yields `np.ones(d) * np.inf`. -/
def inverse_decay_length (p : NCEParticle) (e_grid : List V) : List V :=
  match p.mass, p.ctau with
  | some m, some c =>
    match pyDiv m c with
    | some r =>
        e_grid.enum.map fun ie => if ie.1 < p.mix_idx then V.fin 0 else npDiv r ie.2
    | none => List.replicate p.d V.pinf
  | _, _ => List.replicate p.d V.pinf

/-- `NCEParticle.inverse_interaction_length`:
`np.ones(d) * cs.get_cs(pdgid) / m_air` (elementwise). -/
def inverse_interaction_length (p : NCEParticle) : List V :=
  p.cs.map fun c => V.fin (qdiv c m_air)

/-- The grid-wise ratio `ldec / lint` formed in `calculate_mixing_energy`:
`criterium = (1 / inverse_decay_length) * 1.240e-03 / (1 / inverse_interaction_length)`. -/
def mixing_criterium (p : NCEParticle) (e_grid : List V) : List V :=
  let lint := (inverse_interaction_length p).map fun x => npDiv (V.fin 1) x
  let d_tilde := (inverse_decay_length p e_grid).map fun x => npDiv (V.fin 1) x
  let ldec := d_tilde.map fun x => npMul x (V.fin rho_surface)
  List.zipWith npDiv ldec lint

/-- `NCEParticle.calculate_mixing_energy`, line by line.  `cross_over` is
`config["hybrid_crossover"]`.  The result is the updated particle record, or
`none` when the Python code raises (the `IndexError` from
`np.where(...)[0][0]` on an empty index array, an out-of-range grid access,
or `np.max`/`np.min` of an empty array). -/
def calculate_mixing_energy (p : NCEParticle) (e_grid : List V) (no_mix : Bool)
    (cross_over : ℚ) : Option NCEParticle :=
  if p.pdgid.natAbs = 2212 ∨ p.pdgid.natAbs = 2112 then
    some { p with mix_idx := 0, is_mixed := false }
  else if !((inverse_decay_length p e_grid).any fun x => vlt (V.fin 0) x)
       || !((inverse_interaction_length p).any fun x => vlt (V.fin 0) x) then
    some { p with mix_idx := 0, is_mixed := false, is_resonance := false }
  else
    match vmax (mixing_criterium p e_grid) with
    | none => none
    | some mx =>
      if vlt mx (V.fin cross_over) then
        match e_grid.get? (p.d - 1) with
        | none => none
        | some e =>
          some { p with mix_idx := p.d - 1, E_mix := e, is_mixed := false, is_resonance := true }
      else
        match vmin (mixing_criterium p e_grid) with
        | none => none
        | some mn =>
          if vlt (V.fin cross_over) mn || no_mix then
            some { p with mix_idx := 0, is_mixed := false, is_resonance := false }
          else
            match firstIdx (fun x => vlt (V.fin cross_over) x) (mixing_criterium p e_grid) with
            | none => none
            | some k =>
              match e_grid.get? k with
              | none => none
              | some e =>
                some { p with mix_idx := k, E_mix := e, is_mixed := true, is_resonance := false }

theorem mixing_criterium_length (p : NCEParticle) (e_grid : List V)
    (hd : e_grid.length = p.d) (hcs : p.cs.length = p.d) :
    (mixing_criterium p e_grid).length = p.d := by
  unfold mixing_criterium inverse_decay_length inverse_interaction_length
  cases hm : p.mass with
  | none => simp [List.length_zipWith, hd, hcs]
  | some m =>
    cases hc : p.ctau with
    | none => simp [List.length_zipWith, hd, hcs]
    | some c =>
      cases hr : pyDiv m c with
      | none => simp [hr, List.length_zipWith, hd, hcs]
      | some r => simp [hr, List.length_zipWith, List.enum_length, hd, hcs]

/-- Concrete two-point energy grid used by the concrete evaluations below. -/
def exGrid2 : List V := [V.fin 1, V.fin 2]

/-- Scaling factor chosen so that the mixing criterium becomes `1/4` at grid
point 1 GeV (and `1/2` at 2 GeV): `(1/4) / rho_surface`. -/
def exKRat : ℚ := Rat.divInt 6250 31

/-- A pion-like particle whose decay/interaction ratio on `exGrid2` is
`[1/4, 1/2]`: with a crossover of `1/2` the ratio attains the threshold
exactly as its maximum. -/
def exBoundaryP : NCEParticle :=
  { pdgid := 211, mass := some (V.fin 1), ctau := some (V.fin 1),
    cs := [qmul m_air exKRat, qmul m_air exKRat], d := 2,
    E_mix := V.fin 0, mix_idx := 0, is_mixed := false, is_resonance := false }

/-- A pion-like particle whose decay/interaction ratio on `exGrid2` is
`[1/4, 3/4]`: with a crossover of `1/2` it crosses exactly once, at index 1. -/
def exMixedP : NCEParticle :=
  { exBoundaryP with cs := [qmul m_air exKRat, qmul m_air (qmul exKRat (Rat.divInt 3 2))] }

/-- A particle whose lifetime lookup gives `ctau = 0`, so that forming
`mass / ctau` raises `ZeroDivisionError` inside `inverse_decay_length`. -/
def exZeroTauP : NCEParticle := { exBoundaryP with ctau := some (V.fin 0), cs := [1, 1] }

/-- A stable particle (`ctau = inf`), whose inverse decay length vanishes. -/
def exStableP : NCEParticle := { exBoundaryP with ctau := some V.pinf, cs := [1, 1] }

/-- An antiproton with a stale `is_resonance` flag, to exercise the fixed
nucleon branch. -/
def exProtonP : NCEParticle := { exBoundaryP with pdgid := -2212, is_resonance := true }

/-- Claim C5: for every particle whose identifier magnitude is 2212 (proton)
or 2112 (neutron), `calculate_mixing_energy` classifies it as pure hadron
(mixing index 0, not mixed) regardless of the tabulated cross-section,
lifetime or ratio data, bypassing the general algorithm. -/
theorem nucleon_pure_hadron (p : NCEParticle) (e_grid : List V) (no_mix : Bool)
    (cross_over : ℚ) (h : p.pdgid.natAbs = 2212 ∨ p.pdgid.natAbs = 2112) :
    calculate_mixing_energy p e_grid no_mix cross_over
      = some { p with mix_idx := 0, is_mixed := false } := by
  unfold calculate_mixing_energy
  rw [if_pos h]

/-- Witness for C5: the fixed-nucleon branch evaluated on a concrete
antiproton with adversarial grid data and `no_mix = true`. -/
theorem nucleon_pure_hadron_witness :
    calculate_mixing_energy exProtonP exGrid2 true (Rat.divInt 1 2)
      = some { exProtonP with mix_idx := 0, is_mixed := false } :=
  nucleon_pure_hadron exProtonP exGrid2 true (Rat.divInt 1 2) (by decide)

/-- Claim C7 counterexample: a particle whose lifetime lookup yields zero
(`ZeroDivisionError` when forming `mass / ctau`) with a positive interaction
length is classified pure resonance (`is_resonance` set, mixing index at the
top of the grid), not pure hadron as the claim states: the caught exception
substitutes an infinite inverse decay length, which drives the criterium to
zero everywhere. -/
theorem zero_lifetime_resonance_cex :
    calculate_mixing_energy exZeroTauP exGrid2 false (Rat.divInt 1 2)
        = some { exZeroTauP with
                 mix_idx := 1
                 E_mix := V.fin 2
                 is_mixed := false
                 is_resonance := true }
      ∧ calculate_mixing_energy exZeroTauP exGrid2 false (Rat.divInt 1 2)
        ≠ some { exZeroTauP with
                 mix_idx := 0
                 is_mixed := false
                 is_resonance := false } := by
  exact ⟨by decide, by decide⟩

/-- Claim C7 (amended): for every non-nucleon particle whose inverse decay
length is nowhere positive (infinite lifetime) or whose inverse interaction
length is nowhere positive (zero cross-section), `calculate_mixing_energy`
classifies it pure hadron immediately (mixing index 0, not mixed, not
resonance); a zero-lifetime or failed lookup instead yields an infinite
inverse decay length and takes the resonance path. -/
theorem degenerate_lengths_pure_hadron (p : NCEParticle) (e_grid : List V)
    (no_mix : Bool) (cross_over : ℚ)
    (hnuc : ¬(p.pdgid.natAbs = 2212 ∨ p.pdgid.natAbs = 2112))
    (h : ((inverse_decay_length p e_grid).any fun x => vlt (V.fin 0) x) = false
       ∨ ((inverse_interaction_length p).any fun x => vlt (V.fin 0) x) = false) :
    calculate_mixing_energy p e_grid no_mix cross_over
      = some { p with mix_idx := 0, is_mixed := false, is_resonance := false } := by
  unfold calculate_mixing_energy
  rw [if_neg hnuc]
  rcases h with h | h <;> rw [h] <;> simp

/-- Witness for C7 (amended): a stable particle (infinite `ctau`, vanishing
inverse decay length) is classified pure hadron immediately. -/
theorem degenerate_lengths_pure_hadron_witness :
    calculate_mixing_energy exStableP exGrid2 false (Rat.divInt 1 2)
      = some { exStableP with mix_idx := 0, is_mixed := false, is_resonance := false } :=
  degenerate_lengths_pure_hadron exStableP exGrid2 false (Rat.divInt 1 2)
    (by decide) (Or.inl (by decide))

/-- Claim C10: on the mixed branch the first-crossing lookup
`np.where(ratio > cross_over)[0][0]` succeeds only when the ratio strictly
exceeds the threshold somewhere; when the ratio attains the threshold exactly
as its maximum (nowhere strictly above, not everywhere strictly below), the
index array is empty and the call raises `IndexError` (modelled as `none`)
instead of returning a classification. -/
theorem mixed_branch_boundary_failure (p : NCEParticle) (e_grid : List V)
    (cross_over : ℚ)
    (hnuc : ¬(p.pdgid.natAbs = 2212 ∨ p.pdgid.natAbs = 2112))
    (hdecl : ((inverse_decay_length p e_grid).any fun x => vlt (V.fin 0) x) = true)
    (hintl : ((inverse_interaction_length p).any fun x => vlt (V.fin 0) x) = true)
    (hle : ∀ x ∈ mixing_criterium p e_grid, vle x (V.fin cross_over) = true)
    (hmem : V.fin cross_over ∈ mixing_criterium p e_grid) :
    calculate_mixing_energy p e_grid false cross_over = none := by
  have hnn : ∀ x ∈ mixing_criterium p e_grid, x ≠ V.nan :=
    fun x hx => (vle_ne_nan (hle x hx)).1
  have hne : mixing_criterium p e_grid ≠ [] := by
    intro h
    rw [h] at hmem
    simp at hmem
  obtain ⟨mx, hmx, hmxmem, hub⟩ := vmax_spec _ hne hnn
  obtain ⟨mn, hmn, hmnmem, hlb⟩ := vmin_spec _ hne hnn
  have hmxlt : vlt mx (V.fin cross_over) = false := not_vlt_of_vle (hub _ hmem)
  have hmnlt : vlt (V.fin cross_over) mn = false := not_vlt_of_vle (hle mn hmnmem)
  have hfi : firstIdx (fun x => vlt (V.fin cross_over) x) (mixing_criterium p e_grid)
      = none := firstIdx_eq_none fun x hx => not_vlt_of_vle (hle x hx)
  unfold calculate_mixing_energy
  rw [if_neg hnuc, hdecl, hintl]
  simp only [Bool.not_true, Bool.or_self, Bool.false_eq_true, if_false]
  rw [hmx]
  simp only [hmxlt, Bool.false_eq_true, if_false]
  rw [hmn]
  simp only [hmnlt, Bool.or_false, Bool.false_eq_true, if_false]
  rw [hfi]

/-- Witness for C10: the concrete boundary particle whose criterium is
`[1/4, 1/2]` against a crossover of `1/2` makes the call fail. -/
theorem mixed_branch_boundary_failure_witness :
    calculate_mixing_energy exBoundaryP exGrid2 false (Rat.divInt 1 2) = none :=
  mixed_branch_boundary_failure exBoundaryP exGrid2 (Rat.divInt 1 2)
    (by decide) (by decide) (by decide) (by decide) (by decide)

/-- Claim C1 counterexample: on a grid where the ratio never exceeds the
threshold anywhere (it attains it exactly at the top), the claim's first
branch demands pure resonance, but `calculate_mixing_energy` raises
(`IndexError`, modelled `none`): the code's resonance test is the strict
`max < cross_over`, not "never exceeds". -/
theorem calculate_mixing_energy_threshold_boundary_cex :
    (∀ x ∈ mixing_criterium exBoundaryP exGrid2,
        vlt (V.fin (Rat.divInt 1 2)) x = false)
      ∧ calculate_mixing_energy exBoundaryP exGrid2 false (Rat.divInt 1 2) = none
      ∧ calculate_mixing_energy exBoundaryP exGrid2 false (Rat.divInt 1 2)
          ≠ some { exBoundaryP with
                   mix_idx := 1
                   E_mix := V.fin 2
                   is_mixed := false
                   is_resonance := true } := by
  exact ⟨by decide, by decide, by decide⟩

/-- Claim C1 (amended): for a non-nucleon particle passing the degeneracy
guard, with grid lengths matching and a NaN-free criterium: if the ratio is
everywhere strictly below the threshold, the result is pure resonance with
mixing index `d - 1` and mixing energy the top-of-grid energy; if the ratio
is everywhere strictly above, or mixing is disabled while the ratio is not
everywhere strictly below, the result is pure hadron (mixing index 0); and
whenever the first index with ratio strictly above the threshold exists
while the ratio is not strictly above everywhere and mixing is enabled, the
result is mixed at that index with the grid energy there. -/
theorem calculate_mixing_energy_classification (p : NCEParticle) (e_grid : List V)
    (no_mix : Bool) (cross_over : ℚ)
    (hnuc : ¬(p.pdgid.natAbs = 2212 ∨ p.pdgid.natAbs = 2112))
    (hd : e_grid.length = p.d) (h0 : 0 < p.d) (hcs : p.cs.length = p.d)
    (hdecl : ((inverse_decay_length p e_grid).any fun x => vlt (V.fin 0) x) = true)
    (hintl : ((inverse_interaction_length p).any fun x => vlt (V.fin 0) x) = true)
    (hnn : ∀ x ∈ mixing_criterium p e_grid, x ≠ V.nan) :
    ((∀ x ∈ mixing_criterium p e_grid, vlt x (V.fin cross_over) = true) →
        calculate_mixing_energy p e_grid no_mix cross_over
          = some { p with
                   mix_idx := p.d - 1
                   E_mix := (e_grid.get? (p.d - 1)).getD (V.fin 0)
                   is_mixed := false
                   is_resonance := true })
    ∧ (((∀ x ∈ mixing_criterium p e_grid, vlt (V.fin cross_over) x = true)
          ∨ (no_mix = true
              ∧ ∃ x ∈ mixing_criterium p e_grid, vlt x (V.fin cross_over) = false)) →
        calculate_mixing_energy p e_grid no_mix cross_over
          = some { p with mix_idx := 0, is_mixed := false, is_resonance := false })
    ∧ (∀ k, firstIdx (fun x => vlt (V.fin cross_over) x) (mixing_criterium p e_grid)
            = some k →
        (∃ x ∈ mixing_criterium p e_grid, vlt (V.fin cross_over) x = false) →
        no_mix = false →
        calculate_mixing_energy p e_grid no_mix cross_over
          = some { p with
                   mix_idx := k
                   E_mix := (e_grid.get? k).getD (V.fin 0)
                   is_mixed := true
                   is_resonance := false }) := by
  have hlen : (mixing_criterium p e_grid).length = p.d :=
    mixing_criterium_length p e_grid hd hcs
  have hne : mixing_criterium p e_grid ≠ [] := by
    intro h
    rw [h] at hlen
    simp at hlen
    omega
  obtain ⟨mx, hmx, hmxmem, hub⟩ := vmax_spec _ hne hnn
  obtain ⟨mn, hmn, hmnmem, hlb⟩ := vmin_spec _ hne hnn
  have hco : (V.fin cross_over) ≠ V.nan := by simp
  refine ⟨?_, ?_, ?_⟩
  · intro hall
    have hget : e_grid.get? (p.d - 1) = some (e_grid.get ⟨p.d - 1, by omega⟩) :=
      List.get?_eq_get (by omega)
    unfold calculate_mixing_energy
    rw [if_neg hnuc, hdecl, hintl]
    simp only [Bool.not_true, Bool.or_self, Bool.false_eq_true, if_false]
    rw [hmx]
    simp only [hall mx hmxmem, if_true]
    rw [hget]
    simp [hget]
  · intro hcase
    have hmxf : vlt mx (V.fin cross_over) = false := by
      rcases hcase with hall | ⟨hnm, x0, hx0mem, hx0⟩
      · exact not_vlt_of_vle (vle_of_vlt (hall mx hmxmem))
      · have h1 : vle (V.fin cross_over) x0 =  true :=
          (not_vlt_iff_vle (hnn x0 hx0mem) hco).mp hx0
        exact not_vlt_of_vle (vle_trans h1 (hub x0 hx0mem))
    have hcond : (vlt (V.fin cross_over) mn || no_mix) = true := by
      rcases hcase with hall | ⟨hnm, _⟩
      · rw [hall mn hmnmem]
        simp
      · rw [hnm]
        simp
    unfold calculate_mixing_energy
    rw [if_neg hnuc, hdecl, hintl]
    simp only [Bool.not_true, Bool.or_self, Bool.false_eq_true, if_false]
    rw [hmx]
    simp only [hmxf, Bool.false_eq_true, if_false]
    rw [hmn]
    simp only [hcond, if_true]
  · intro k hfk ⟨x0, hx0mem, hx0⟩ hnm
    obtain ⟨xk, hxk, hfxk⟩ := firstIdx_some_spec hfk
    have hxkmem : xk ∈ mixing_criterium p e_grid := List.get?_mem hxk
    have hklt : k < p.d := by
      obtain ⟨hk1, _⟩ := List.get?_eq_some.mp hxk
      omega
    have hget : e_grid.get? k = some (e_grid.get ⟨k, by omega⟩) :=
      List.get?_eq_get (by omega)
    have hmxf : vlt mx (V.fin cross_over) = false :=
      not_vlt_of_vle (vle_of_vlt (vlt_of_vlt_of_vle hfxk (hub xk hxkmem)))
    have h1 : vle x0 (V.fin cross_over) = true :=
      (not_vlt_iff_vle hco (hnn x0 hx0mem)).mp hx0
    have hmnf : vlt (V.fin cross_over) mn = false :=
      not_vlt_of_vle (vle_trans (hlb x0 hx0mem) h1)
    unfold calculate_mixing_energy
    rw [if_neg hnuc, hdecl, hintl]
    simp only [Bool.not_true, Bool.or_self, Bool.false_eq_true, if_false]
    rw [hmx]
    simp only [hmxf, Bool.false_eq_true, if_false]
    rw [hmn]
    simp only [hmnf, hnm, Bool.or_false, Bool.false_eq_true, if_false]
    rw [hfk]
    dsimp only
    rw [hget]
    simp [hget]

/-- Witness for C1: the particle with criterium `[1/4, 3/4]` against a
crossover of `1/2` is classified mixed at index 1 with mixing energy 2 GeV. -/
theorem calculate_mixing_energy_classification_witness :
    calculate_mixing_energy exMixedP exGrid2 false (Rat.divInt 1 2)
      = some { exMixedP with
               mix_idx := 1
               E_mix := (exGrid2.get? 1).getD (V.fin 0)
               is_mixed := true
               is_resonance := false } :=
  (calculate_mixing_energy_classification exMixedP exGrid2 false (Rat.divInt 1 2)
      (by decide) (by decide) (by decide) (by decide) (by decide) (by decide)
      (by decide)).2.2 1 (by decide) (by decide) rfl

/-! Yield-matrix bookkeeping (`InteractionYields`).  Matrices over the energy
grid are `Matrix (Fin n) (Fin n) ℚ`; the dictionary of yield records is an
association list keyed by `(projectile, secondary)` PDG-id pairs (a Python
dict: unique keys, iterated in order). -/

/-- Matrix type over a grid of dimension `n`. -/
abbrev Mat (n : ℕ) := Matrix (Fin n) (Fin n) ℚ

/-- Transparent matrix product (numpy `dot`); equal to `*` by `matMul_eq`. -/
def matMul {n : ℕ} (A B : Mat n) : Mat n :=
  Matrix.of fun i j => ((List.finRange n).map fun k => qmul (A i k) (B k j)).foldr qadd 0

theorem foldr_qadd_sum (l : List ℚ) : l.foldr qadd 0 = l.sum := by
  induction l with
  | nil => rfl
  | cons x xs ih => simp [List.foldr, qadd_eq, ih]

theorem matMul_eq {n : ℕ} (A B : Mat n) : matMul A B = A * B := by
  ext i j
  rw [Matrix.mul_apply]
  show ((List.finRange n).map fun k => qmul (A i k) (B k j)).foldr qadd 0 = _
  simp only [qmul_eq]
  rw [foldr_qadd_sum, ← Fin.sum_univ_def]

/-- `np.sum` of a matrix: the sum of all entries. -/
def matSum {n : ℕ} (A : Mat n) : ℚ :=
  ((List.finRange n).map fun i => ((List.finRange n).map fun j => A i j).foldr qadd 0).foldr qadd 0

/-- `np.diag` of a vector. -/
def diagM {n : ℕ} (w : Fin n → ℚ) : Mat n :=
  Matrix.of fun i j => if i = j then w i else 0

theorem diagM_eq {n : ℕ} (w : Fin n → ℚ) : diagM w = Matrix.diagonal w := by
  ext i j
  simp [diagM, Matrix.diagonal]

/-- The bin-width diagonal matrix `np.diag(e_bins[1:] - e_bins[:-1])` built
in `InteractionYields._load` from the `n + 1` bin edges. -/
def weightsOf {n : ℕ} (e_bins : Fin (n + 1) → ℚ) : Mat n :=
  diagM fun i => qsub (e_bins i.succ) (e_bins i.castSucc)

/-- Association list of yield records keyed by `(projectile, secondary)`. -/
abbrev RecList (n : ℕ) := List ((ℤ × ℤ) × Mat n)

/-- Python `dict[key]` lookup over the association list. -/
def assocLookup {n : ℕ} (k : ℤ × ℤ) : RecList n → Option (Mat n)
  | [] => none
  | (k', m) :: rest => if k' = k then some m else assocLookup k rest

/-- Pointwise update of the secondary index. -/
def upd (dd : ℤ → List ℤ) (p : ℤ) (l : List ℤ) : ℤ → List ℤ :=
  fun q => if q = p then l else dd q

/-- The loop body of `InteractionYields._gen_index`: for each record with
non-zero sum whose secondary is not an electron or photon, assert the
secondary is not yet registered for this projectile (an `AssertionError`,
modelled `none`) and append it. -/
def gen_index_loop {n : ℕ} : RecList n → (ℤ → List ℤ) → Option (ℤ → List ℤ)
  | [], dd => some dd
  | ((proj, sec), mat) :: rest, dd =>
    if 0 < matSum mat ∧ ¬(sec.natAbs = 11 ∨ sec.natAbs = 22) then
      if sec ∈ dd proj then none
      else gen_index_loop rest (upd dd proj (dd proj ++ [sec]))
    else gen_index_loop rest dd

/-- `InteractionYields._gen_index`: the projectile list (`np.unique` of the
key heads; sorted there, deduplicated here - only membership and uniqueness
are used) and the secondary dictionary.  `none` models the uncaught
exceptions (`zip(*keys)` on an empty dict, or the duplicate-registration
assertion). -/
def gen_index {n : ℕ} (ys : RecList n) : Option (List ℤ × (ℤ → List ℤ)) :=
  if ys = [] then none
  else (gen_index_loop ys fun _ => []).map
    fun dd => ((ys.map fun e => e.1.1).dedup, dd)

/-- Projectile list of a generated index (empty when generation failed). -/
def projectilesOf {n : ℕ} (o : Option (List ℤ × (ℤ → List ℤ))) : List ℤ :=
  (o.map Prod.fst).getD []

/-- Secondary list of a generated index for one projectile. -/
def secondariesOf (o : Option (List ℤ × (ℤ → List ℤ))) (p : ℤ) : List ℤ :=
  match o with
  | none => []
  | some (_, dd) => dd p

/-- `InteractionYields.is_yield` evaluated against a generated index:
projectile registered and secondary in its list. -/
def is_yield_of (o : Option (List ℤ × (ℤ → List ℤ))) (projectile daughter : ℤ) : Bool :=
  match o with
  | none => false
  | some (projs, dd) => projectile ∈ projs ∧ daughter ∈ dd projectile

/-- `InteractionYields.get_y_matrix`: `yields[(projectile, daughter)]`
(raising `KeyError`, modelled `none`, when the pair is absent) right-
multiplied by the bin-width diagonal matrix. -/
def get_y_matrix {n : ℕ} (yields : RecList n) (weights : Mat n)
    (projectile daughter : ℤ) : Option (Mat n) :=
  (assocLookup (projectile, daughter) yields).map fun m => matMul m weights

theorem assocLookup_isSome_of_mem {n : ℕ} {k : ℤ × ℤ} {m : Mat n} {ys : RecList n}
    (h : (k, m) ∈ ys) : (assocLookup k ys).isSome = true := by
  induction ys with
  | nil => simp at h
  | cons e rest ih =>
    obtain ⟨k', m'⟩ := e
    rcases List.mem_cons.mp h with h1 | h1
    · rw [assocLookup, if_pos (by injection h1 with h2 _; rw [h2])]
      rfl
    · rw [assocLookup]
      split
      · rfl
      · exact ih h1

theorem assocLookup_mem {n : ℕ} {k : ℤ × ℤ} {m : Mat n} {ys : RecList n}
    (h : assocLookup k ys = some m) : (k, m) ∈ ys := by
  induction ys with
  | nil => simp [assocLookup] at h
  | cons e rest ih =>
    obtain ⟨k', m'⟩ := e
    rw [assocLookup] at h
    by_cases hk : k' = k
    · rw [if_pos hk] at h
      injection h with h1
      simp [hk, h1]
    · rw [if_neg hk] at h
      simp [ih h]

theorem gen_index_loop_mem {n : ℕ} :
    ∀ (ys : RecList n) (dd dd' : ℤ → List ℤ), gen_index_loop ys dd = some dd' →
      ∀ p s, s ∈ dd' p → s ∈ dd p ∨ ∃ m, ((p, s), m) ∈ ys := by
  intro ys
  induction ys with
  | nil =>
    intro dd dd' h p s hs
    rw [gen_index_loop] at h
    injection h with h
    rw [h]
    exact Or.inl hs
  | cons e rest ih =>
    intro dd dd' h p s hs
    obtain ⟨⟨proj, sec⟩, mat⟩ := e
    rw [gen_index_loop] at h
    split at h
    · split at h
      · exact absurd h (by simp)
      · rcases ih _ _ h p s hs with h1 | ⟨m, hm⟩
        · unfold upd at h1
          by_cases hp : p = proj
          · rw [if_pos hp] at h1
            rcases List.mem_append.mp h1 with h2 | h2
            · rw [hp]
              exact Or.inl h2
            · refine Or.inr ⟨mat, ?_⟩
              rw [hp, List.mem_singleton.mp h2]
              simp
          · rw [if_neg hp] at h1
            exact Or.inl h1
        · exact Or.inr ⟨m, by simp [hm]⟩
    · rcases ih _ _ h p s hs with h1 | ⟨m, hm⟩
      · exact Or.inl h1
      · exact Or.inr ⟨m, by simp [hm]⟩

theorem gen_index_loop_mono {n : ℕ} :
    ∀ (ys : RecList n) (dd dd' : ℤ → List ℤ), gen_index_loop ys dd = some dd' →
      ∀ p s, s ∈ dd p → s ∈ dd' p := by
  intro ys
  induction ys with
  | nil =>
    intro dd dd' h p s hs
    rw [gen_index_loop] at h
    injection h with h
    rw [← h]
    exact hs
  | cons e rest ih =>
    intro dd dd' h p s hs
    obtain ⟨⟨proj, sec⟩, mat⟩ := e
    rw [gen_index_loop] at h
    split at h
    · split at h
      · exact absurd h (by simp)
      · refine ih _ _ h p s ?_
        unfold upd
        by_cases hp : p = proj
        · rw [if_pos hp]
          exact List.mem_append.mpr (Or.inl (hp ▸ hs))
        · rw [if_neg hp]
          exact hs
    · exact ih _ _ h p s hs

theorem gen_index_loop_nodup {n : ℕ} :
    ∀ (ys : RecList n) (dd dd' : ℤ → List ℤ), gen_index_loop ys dd = some dd' →
      (∀ p, (dd p).Nodup) → ∀ p, (dd' p).Nodup := by
  intro ys
  induction ys with
  | nil =>
    intro dd dd' h hd p
    rw [gen_index_loop] at h
    injection h with h
    rw [← h]
    exact hd p
  | cons e rest ih =>
    intro dd dd' h hd p
    obtain ⟨⟨proj, sec⟩, mat⟩ := e
    rw [gen_index_loop] at h
    split at h
    · split at h
      case isTrue hmem => exact absurd h (by simp)
      case isFalse hmem =>
        refine ih _ _ h ?_ p
        intro q
        unfold upd
        by_cases hq : q = proj
        · rw [if_pos hq]
          simp [List.nodup_append, hd proj, hmem]
        · rw [if_neg hq]
          exact hd q
    · exact ih _ _ h hd p

theorem gen_index_loop_no_em {n : ℕ} :
    ∀ (ys : RecList n) (dd dd' : ℤ → List ℤ) (p s : ℤ),
      gen_index_loop ys dd = some dd' →
      (s.natAbs = 11 ∨ s.natAbs = 22) → s ∉ dd p → s ∉ dd' p := by
  intro ys
  induction ys with
  | nil =>
    intro dd dd' p s h hem hs
    rw [gen_index_loop] at h
    injection h with h
    rw [← h]
    exact hs
  | cons e rest ih =>
    intro dd dd' p s h hem hs
    obtain ⟨⟨proj, sec⟩, mat⟩ := e
    rw [gen_index_loop] at h
    split at h
    case isTrue hguard =>
      split at h
      · exact absurd h (by simp)
      · refine ih _ _ p s h hem ?_
        unfold upd
        by_cases hp : p = proj
        · rw [if_pos hp]
          intro hcon
          rcases List.mem_append.mp hcon with h1 | h1
          · exact hs (hp ▸ h1)
          · rw [List.mem_singleton.mp h1] at hem
            exact hguard.2 hem
        · rw [if_neg hp]
          exact hs
    case isFalse => exact ih _ _ p s h hem hs

theorem gen_index_loop_none_of_dup {n : ℕ} :
    ∀ (ys : RecList n) (dd : ℤ → List ℤ) (p s : ℤ) (m : Mat n),
      ((p, s), m) ∈ ys → 0 < matSum m → ¬(s.natAbs = 11 ∨ s.natAbs = 22) →
      s ∈ dd p → gen_index_loop ys dd = none := by
  intro ys
  induction ys with
  | nil =>
    intro dd p s m hm
    simp at hm
  | cons e rest ih =>
    intro dd p s m hm hsum hem hs
    obtain ⟨⟨proj, sec⟩, mat⟩ := e
    rw [gen_index_loop]
    rcases List.mem_cons.mp hm with h1 | h1
    · have hps : proj = p ∧ sec = s ∧ mat = m := by
        injection h1 with h2 h3
        injection h2 with h4 h5
        exact ⟨h4.symm, h5.symm, h3.symm⟩
      obtain ⟨hp, hsec, hmat⟩ := hps
      rw [if_pos (by rw [hsec, hmat]; exact ⟨hsum, hem⟩)]
      rw [if_pos (by rw [hsec, hp]; exact hs)]
    · split
      · split
        case isTrue => rfl
        case isFalse hmem =>
          refine ih _ p s m h1 hsum hem ?_
          unfold upd
          by_cases hp : p = proj
          · rw [if_pos hp]
            exact List.mem_append.mpr (Or.inl (hp ▸ hs))
          · rw [if_neg hp]
            exact hs
      · exact ih _ p s m h1 hsum hem hs

theorem gen_index_loop_append {n : ℕ} :
    ∀ (l1 l2 : RecList n) (dd : ℤ → List ℤ),
      gen_index_loop (l1 ++ l2) dd
        = (gen_index_loop l1 dd).bind fun dd1 => gen_index_loop l2 dd1 := by
  intro l1
  induction l1 with
  | nil => intro l2 dd; rfl
  | cons e rest ih =>
    intro l2 dd
    obtain ⟨⟨proj, sec⟩, mat⟩ := e
    rw [List.cons_append, gen_index_loop, gen_index_loop]
    split
    · split
      · rfl
      · exact ih l2 _
    · exact ih l2 _

/-- All-zero 1x1 record matrix. -/
def exZeroMat : Mat 1 := Matrix.of fun _ _ => 0

/-- All-one 1x1 record matrix. -/
def exOneMat : Mat 1 := Matrix.of fun _ _ => 1

/-- A record set whose only entry is a stored all-zero matrix: excluded from
the index but still present in the dictionary. -/
def exYsZero : RecList 1 := [((2212, 321), exZeroMat)]

/-- A record set with one non-trivial record. -/
def exYsPos : RecList 1 := [((2212, 321), exOneMat)]

/-- A record set that tabulates a non-zero yield matrix for an electron
secondary next to an ordinary one. -/
def exYsEM : RecList 1 := [((2212, 11), exOneMat), ((2212, 321), exOneMat)]

/-- Bin edges `[0, 1]` for the 1-point grid (bin width 1). -/
def exEbins : Fin 2 → ℚ := fun i => if i.1 = 0 then 0 else 1

/-- Claim C3 counterexample: for a stored all-zero record, `is_yield` is
false yet `get_y_matrix` does not raise - it happily returns the zero matrix
times the widths, refuting "if has_yield is false then get_yield_matrix
raises". -/
theorem get_y_matrix_zero_record_cex :
    is_yield_of (gen_index exYsZero) 2212 321 = false
      ∧ (get_y_matrix exYsZero (weightsOf exEbins) 2212 321).isSome = true := by
  exact ⟨by decide, by decide⟩

/-- Claim C3 (amended): if the `(source, product)` pair is absent from the
stored record dictionary, `get_y_matrix` raises (`KeyError`, modelled
`none`); if `is_yield` over the generated index is true, it never raises and
returns the stored matrix right-multiplied by the bin-width diagonal matrix,
with non-negative entries whenever the stored records are non-negative and
the bin edges are non-decreasing.  (Pairs stored but excluded from the index
- zero-sum records and electron/photon secondaries - return without
raising.) -/
theorem get_y_matrix_spec (n : ℕ) (ys : RecList n) (e_bins : Fin (n + 1) → ℚ)
    (p s : ℤ)
    (hw : ∀ i : Fin n, e_bins i.castSucc ≤ e_bins i.succ)
    (hrec : ∀ e ∈ ys, ∀ i j, 0 ≤ e.2 i j) :
    (assocLookup (p, s) ys = none → get_y_matrix ys (weightsOf e_bins) p s = none)
      ∧ (is_yield_of (gen_index ys) p s = true →
          (get_y_matrix ys (weightsOf e_bins) p s).isSome = true
            ∧ ∀ M, get_y_matrix ys (weightsOf e_bins) p s = some M →
                ∀ i j, 0 ≤ M i j) := by
  constructor
  · intro h
    unfold get_y_matrix
    rw [h]
    rfl
  · intro h
    have hlook : ∃ m, assocLookup (p, s) ys = some m := by
      cases hgi : gen_index ys with
      | none =>
        rw [hgi] at h
        simp [is_yield_of] at h
      | some pr =>
        obtain ⟨projs, dd⟩ := pr
        rw [hgi] at h
        simp only [is_yield_of, decide_eq_true_eq] at h
        unfold gen_index at hgi
        split at hgi
        · exact absurd hgi (by simp)
        · obtain ⟨dd1, hdd1, hpair⟩ := Option.map_eq_some'.mp hgi
          have hdd : dd1 = dd := by
            injection hpair with h1 h2
          rcases gen_index_loop_mem ys _ _ hdd1 p s (hdd ▸ h.2) with h2 | ⟨m, hm⟩
          · simp at h2
          · obtain ⟨m', hm'⟩ := Option.isSome_iff_exists.mp (assocLookup_isSome_of_mem hm)
            exact ⟨m', hm'⟩
    obtain ⟨m, hm⟩ := hlook
    constructor
    · unfold get_y_matrix
      rw [hm]
      rfl
    · intro M hM i j
      unfold get_y_matrix at hM
      rw [hm] at hM
      simp only [Option.map_some'] at hM
      have hMdef : M = matMul m (weightsOf e_bins) := by
        injection hM with h1
        exact h1.symm
      rw [hMdef, matMul_eq]
      unfold weightsOf
      rw [diagM_eq, Matrix.mul_diagonal]
      refine mul_nonneg (hrec _ (assocLookup_mem hm) i j) ?_
      rw [qsub_eq]
      have := hw j
      linarith

/-- Witness for C3 (amended): for the record set with one positive record,
`is_yield` holds and `get_y_matrix` returns without raising. -/
theorem get_y_matrix_spec_witness :
    (get_y_matrix exYsPos (weightsOf exEbins) 2212 321).isSome = true :=
  ((get_y_matrix_spec 1 exYsPos exEbins 2212 321 (by decide) (by decide)).2
    (by decide)).1

/-- Claim C9: the generated interaction index (rebuilt by both
`set_interaction_model` and `inject_custom_charm_model` via `_gen_index`)
never lists a secondary with identifier magnitude 11 (electron) or 22
(photon): such identifiers never appear in `secondary_dict[p]` and
`is_yield(p, s)` is false for them, even when a non-zero yield matrix for
`(p, s)` is tabulated. -/
theorem no_em_secondaries (n : ℕ) (ys : RecList n) (p s : ℤ)
    (h : s.natAbs = 11 ∨ s.natAbs = 22) :
    s ∉ secondariesOf (gen_index ys) p
      ∧ is_yield_of (gen_index ys) p s = false := by
  cases hgi : gen_index ys with
  | none => exact ⟨by simp [secondariesOf], by simp [is_yield_of]⟩
  | some pr =>
    obtain ⟨projs, dd⟩ := pr
    unfold gen_index at hgi
    split at hgi
    · exact absurd hgi (by simp)
    · obtain ⟨dd1, hdd1, hpair⟩ := Option.map_eq_some'.mp hgi
      have hdd : dd1 = dd := by
        injection hpair with h1 h2
      have hnotin : s ∉ dd p := by
        rw [← hdd]
        exact gen_index_loop_no_em ys _ _ p s hdd1 h (by simp)
      constructor
      · simpa [secondariesOf] using hnotin
      · simp [is_yield_of, hnotin]

/-- Witness for C9: a table with a non-zero `(2212, 11)` record still
excludes the electron from the index. -/
theorem no_em_secondaries_witness :
    (11 : ℤ) ∉ secondariesOf (gen_index exYsEM) 2212
      ∧ is_yield_of (gen_index exYsEM) 2212 11 = false :=
  no_em_secondaries 1 exYsEM 2212 11 (Or.inl (by decide))

/-! Decay-yield bookkeeping (`DecayYields`).  The daughter dictionary is a
partial map (a missing key models Python `KeyError` on access), built by
`_gen_index` and then patched for the three muon scoring aliases. -/

/-- Matrix transpose (`ndarray.T`). -/
def transposeM {n : ℕ} (A : Mat n) : Mat n := Matrix.of fun i j => A j i

/-- Pointwise update of the partial daughter dictionary. -/
def updOpt (dd : ℤ → Option (List ℤ)) (m : ℤ) (l : List ℤ) : ℤ → Option (List ℤ) :=
  fun q => if q = m then some l else dd q

/-- The loop body of `DecayYields._gen_index`: for each record with non-zero
sum, append the daughter to the mother's list unless it is already present
(silent deduplication - there is no assertion here, unlike the interaction
variant).  The `none` branch of the inner match is unreachable because the
dictionary is initialised with a key for every mother. -/
def decay_loop {n : ℕ} : RecList n → (ℤ → Option (List ℤ)) → (ℤ → Option (List ℤ))
  | [], dd => dd
  | ((mo, da), _mat) :: rest, dd =>
    if 0 < matSum _mat then
      match dd mo with
      | some l => if da ∈ l then decay_loop rest dd
                  else decay_loop rest (updOpt dd mo (l ++ [da]))
      | none => decay_loop rest dd
    else decay_loop rest dd

/-- Copy the decay matrices of `src` onto the alias `dst` for the listed
daughters, in order: `decay_dict[(dst, d)] = decay_dict[(src, d)]`.  A
missing source record raises `KeyError` (modelled `none`). -/
def copyMats {n : ℕ} (dm : (ℤ × ℤ) → Option (Mat n)) (src dst : ℤ) :
    List ℤ → Option ((ℤ × ℤ) → Option (Mat n))
  | [] => some dm
  | da :: rest =>
    match dm (src, da) with
    | none => none
    | some M => copyMats (fun k => if k = (dst, da) then some M else dm k) src dst rest

/-- One iteration of the alias loop in `DecayYields._gen_index`:
`daughter_dict[alias] = daughter_dict[13]`,
`daughter_dict[-alias] = daughter_dict[-13]`, then the matrices of every
daughter are copied under the alias keys.  Raises `KeyError` (`none`) if the
canonical muon is not a registered mother. -/
def alias_step {n : ℕ}
    (st : (ℤ → Option (List ℤ)) × ((ℤ × ℤ) → Option (Mat n))) (al : ℤ) :
    Option ((ℤ → Option (List ℤ)) × ((ℤ × ℤ) → Option (Mat n))) :=
  match st.1 13, st.1 (-13) with
  | some l13, some lm13 =>
    (copyMats st.2 13 al l13).bind fun dm1 =>
      (copyMats dm1 (-13) (-al) lm13).map fun dm2 =>
        (updOpt (updOpt st.1 al l13) (-al) lm13, dm2)
  | _, _ => none

/-- The alias for-loop of `DecayYields._gen_index`, iterating `alias_step`
over the scoring-alias identifiers. -/
def alias_fold {n : ℕ} :
    List ℤ → (ℤ → Option (List ℤ)) × ((ℤ × ℤ) → Option (Mat n)) →
    Option ((ℤ → Option (List ℤ)) × ((ℤ × ℤ) → Option (Mat n)))
  | [], st => some st
  | al :: rest, st => (alias_step st al).bind fun st1 => alias_fold rest st1

/-- `DecayYields._gen_index`: build the daughter dictionary over the unique
mothers and patch the three scoring aliases `7013, 7113, 7213` (and charge
conjugates) to inherit the muon decay channels. -/
def gen_index_decay {n : ℕ} (dl : RecList n) :
    Option ((ℤ → Option (List ℤ)) × ((ℤ × ℤ) → Option (Mat n))) :=
  if dl = [] then none
  else
    alias_fold [7013, 7113, 7213]
      (decay_loop dl
          (fun m => if m ∈ (dl.map fun e => e.1.1).dedup then some [] else none),
        fun k => assocLookup k dl)

/-- `DecayYields.daughters` over a constructed index: the empty list for a
stable or unknown mother, else the daughter list. -/
def daughters_of {n : ℕ}
    (o : Option ((ℤ → Option (List ℤ)) × ((ℤ × ℤ) → Option (Mat n))))
    (mother : ℤ) : List ℤ :=
  match o with
  | none => []
  | some (dd, _) => (dd mother).getD []

/-- `DecayYields.is_daughter` over a constructed index. -/
def is_daughter_of {n : ℕ}
    (o : Option ((ℤ → Option (List ℤ)) × ((ℤ × ℤ) → Option (Mat n))))
    (mother daughter : ℤ) : Bool :=
  match o with
  | none => false
  | some (dd, _) =>
    match dd mother with
    | none => false
    | some l => daughter ∈ l

/-- `DecayYields.get_d_matrix` over a constructed index:
`decay_dict[(mother, daughter)].T.dot(weights)`, raising `KeyError`
(modelled `none`) when the record is absent. -/
def get_d_matrix_of {n : ℕ}
    (o : Option ((ℤ → Option (List ℤ)) × ((ℤ × ℤ) → Option (Mat n))))
    (weights : Mat n) (mother daughter : ℤ) : Option (Mat n) :=
  match o with
  | none => none
  | some (_, dm) => (dm (mother, daughter)).map fun A => matMul (transposeM A) weights

theorem copyMats_untouched {n : ℕ} {src dst : ℤ} :
    ∀ (das : List ℤ) (dm dm' : (ℤ × ℤ) → Option (Mat n)),
      copyMats dm src dst das = some dm' →
      ∀ k, (∀ da ∈ das, k ≠ (dst, da)) → dm' k = dm k := by
  intro das
  induction das with
  | nil =>
    intro dm dm' h k _
    rw [copyMats] at h
    injection h with h
    rw [← h]
  | cons da rest ih =>
    intro dm dm' h k hk
    rw [copyMats] at h
    cases hM : dm (src, da) with
    | none => rw [hM] at h; exact absurd h (by simp)
    | some M =>
      rw [hM] at h
      have h1 := ih _ _ h k fun d hd => hk d (by simp [hd])
      rw [h1, if_neg (hk da (by simp))]

theorem copyMats_get {n : ℕ} {src dst : ℤ} (hsd : src ≠ dst) :
    ∀ (das : List ℤ) (dm dm' : (ℤ × ℤ) → Option (Mat n)),
      copyMats dm src dst das = some dm' →
      ∀ da ∈ das, dm' (dst, da) = dm (src, da) := by
  intro das
  induction das with
  | nil =>
    intro dm dm' _ da hda
    simp at hda
  | cons da0 rest ih =>
    intro dm dm' h da hda
    rw [copyMats] at h
    cases hM : dm (src, da0) with
    | none => rw [hM] at h; exact absurd h (by simp)
    | some M =>
      rw [hM] at h
      by_cases hmem : da ∈ rest
      · have h1 := ih _ _ h da hmem
        rw [h1, if_neg (by simp [Prod.ext_iff]; intro hcon; exact absurd hcon hsd)]
      · have hda0 : da = da0 := by
          rcases List.mem_cons.mp hda with h2 | h2
          · exact h2
          · exact absurd h2 hmem
        subst hda0
        have h1 := copyMats_untouched rest _ _ h (dst, da)
          (fun d hd => by
            intro hcon
            have hdd : da = d := by injection hcon
            rw [hdd] at hmem
            exact hmem hd)
        rw [h1, if_pos rfl, hM]

theorem alias_step_spec {n : ℕ}
    {dd : ℤ → Option (List ℤ)} {dm : (ℤ × ℤ) → Option (Mat n)} {al : ℤ}
    {st' : (ℤ → Option (List ℤ)) × ((ℤ × ℤ) → Option (Mat n))}
    (hpos : 0 < al) (hne13 : al ≠ 13)
    (h : alias_step (dd, dm) al = some st') :
    ∃ l13 lm13, dd 13 = some l13 ∧ dd (-13) = some lm13
      ∧ st'.1 al = some l13 ∧ st'.1 (-al) = some lm13
      ∧ (∀ q, q ≠ al → q ≠ -al → st'.1 q = dd q)
      ∧ (∀ k : ℤ × ℤ, k.1 ≠ al → k.1 ≠ -al → st'.2 k = dm k)
      ∧ (∀ da ∈ l13, st'.2 (al, da) = dm (13, da))
      ∧ (∀ da ∈ lm13, st'.2 (-al, da) = dm (-13, da)) := by
  unfold alias_step at h
  dsimp only at h
  cases h13 : dd 13 with
  | none => rw [h13] at h; exact absurd h (by simp)
  | some l13 =>
    cases hm13 : dd (-13) with
    | none => rw [h13, hm13] at h; exact absurd h (by simp)
    | some lm13 =>
      rw [h13, hm13] at h
      simp only [Option.bind_eq_some, Option.map_eq_some'] at h
      obtain ⟨dm1, hdm1, dm2, hdm2, hst⟩ := h
      have hneg : -al ≠ al := by omega
      have hal13 : (13 : ℤ) ≠ al := fun hc => hne13 hc.symm
      have halm13 : (-13 : ℤ) ≠ al := by omega
      have hal13n : (13 : ℤ) ≠ -al := by omega
      have halm13n : (-13 : ℤ) ≠ -al := by omega
      refine ⟨l13, lm13, rfl, rfl, ?_, ?_, ?_, ?_, ?_, ?_⟩
      · rw [← hst]
        simp only [updOpt]
        rw [if_neg (show ¬(al = -al) by omega)]
        simp
      · rw [← hst]
        simp only [updOpt]
        simp
      · intro q hq1 hq2
        rw [← hst]
        simp only [updOpt]
        rw [if_neg hq2, if_neg hq1]
      · intro k hk1 hk2
        rw [← hst]
        have h2 := copyMats_untouched lm13 _ _ hdm2 k
          (fun d _ => by
            intro hcon
            rw [hcon] at hk2
            exact hk2 rfl)
        have h1 := copyMats_untouched l13 _ _ hdm1 k
          (fun d _ => by
            intro hcon
            rw [hcon] at hk1
            exact hk1 rfl)
        simp only [h2, h1]
      · intro da hda
        rw [← hst]
        have h2 := copyMats_untouched lm13 _ _ hdm2 (al, da)
          (fun d _ => by
            intro hcon
            have : al = -al := by injection hcon
            omega)
        have h1 := copyMats_get hal13 l13 _ _ hdm1 da hda
        simp only [h2, h1]
      · intro da hda
        rw [← hst]
        have h2 := copyMats_get halm13n lm13 _ _ hdm2 da hda
        have h1 := copyMats_untouched l13 _ _ hdm1 (-13, da)
          (fun d _ => by
            intro hcon
            have : (-13 : ℤ) = al := by injection hcon
            omega)
        simp only [h2, h1]

theorem alias_fold_preserve {n : ℕ} :
    ∀ (al_list : List ℤ)
      (st0 st : (ℤ → Option (List ℤ)) × ((ℤ × ℤ) → Option (Mat n))),
      (∀ a ∈ al_list, 0 < a ∧ a ≠ 13) →
      alias_fold al_list st0 = some st →
      (∀ q, (∀ a ∈ al_list, q ≠ a ∧ q ≠ -a) → st.1 q = st0.1 q)
        ∧ (∀ k : ℤ × ℤ, (∀ a ∈ al_list, k.1 ≠ a ∧ k.1 ≠ -a) → st.2 k = st0.2 k) := by
  intro al_list
  induction al_list with
  | nil =>
    intro st0 st _ h
    rw [alias_fold] at h
    injection h with h
    rw [← h]
    exact ⟨fun _ _ => rfl, fun _ _ => rfl⟩
  | cons al0 rest ih =>
    intro st0 st hwf h
    rw [alias_fold] at h
    cases hst1 : alias_step st0 al0 with
    | none =>
      rw [hst1] at h
      exact absurd h (by simp)
    | some st1 =>
      rw [hst1] at h
      simp only [Option.some_bind] at h
      obtain ⟨ihq, ihk⟩ := ih st1 st (fun a ha => hwf a (by simp [ha])) h
      obtain ⟨st0a, st0b⟩ := st0
      obtain ⟨l13, lm13, _, _, _, _, hq1, hk1, _, _⟩ :=
        alias_step_spec (hwf al0 (by simp)).1 (hwf al0 (by simp)).2 hst1
      constructor
      · intro q hq
        rw [ihq q fun a ha => hq a (by simp [ha])]
        exact hq1 q (hq al0 (by simp)).1 (hq al0 (by simp)).2
      · intro k hk
        rw [ihk k fun a ha => hk a (by simp [ha])]
        exact hk1 k (hk al0 (by simp)).1 (hk al0 (by simp)).2

theorem alias_fold_mem {n : ℕ} :
    ∀ (al_list : List ℤ)
      (st0 st : (ℤ → Option (List ℤ)) × ((ℤ × ℤ) → Option (Mat n))),
      (∀ a ∈ al_list, 0 < a ∧ a ≠ 13) → al_list.Nodup →
      alias_fold al_list st0 = some st →
      ∀ al ∈ al_list,
        ∃ l13 lm13, st0.1 13 = some l13 ∧ st0.1 (-13) = some lm13
          ∧ st.1 al = some l13 ∧ st.1 (-al) = some lm13
          ∧ st.1 13 = some l13 ∧ st.1 (-13) = some lm13
          ∧ (∀ da ∈ l13, st.2 (al, da) = st0.2 (13, da)
              ∧ st.2 (13, da) = st0.2 (13, da))
          ∧ (∀ da ∈ lm13, st.2 (-al, da) = st0.2 (-13, da)
              ∧ st.2 (-13, da) = st0.2 (-13, da)) := by
  intro al_list
  induction al_list with
  | nil =>
    intro st0 st _ _ _ al hal
    simp at hal
  | cons al0 rest ih =>
    intro st0 st hwf hnd h al hal
    rw [alias_fold] at h
    cases hst1 : alias_step st0 al0 with
    | none =>
      rw [hst1] at h
      exact absurd h (by simp)
    | some st1 =>
      rw [hst1] at h
      simp only [Option.some_bind] at h
      have hwf0 := hwf al0 (by simp)
      obtain ⟨st0a, st0b⟩ := st0
      obtain ⟨l13, lm13, h13, hm13, hal1, halm1, hq1, hk1, hc1, hc2⟩ :=
        alias_step_spec hwf0.1 hwf0.2 hst1
      have h13p : st1.1 13 = some l13 := by
        rw [hq1 13 (fun hc => hwf0.2 hc.symm) (by omega)]
        exact h13
      have hm13p : st1.1 (-13) = some lm13 := by
        rw [hq1 (-13) (by omega) (by omega)]
        exact hm13
      have hrest_wf : ∀ a ∈ rest, 0 < a ∧ a ≠ 13 := fun a ha => hwf a (by simp [ha])
      have hnotin : al0 ∉ rest := (List.nodup_cons.mp hnd).1
      have hn13 : ∀ a ∈ rest, (13 : ℤ) ≠ a ∧ (13 : ℤ) ≠ -a := by
        intro a ha
        have hha := hrest_wf a ha
        exact ⟨fun hc => hha.2 hc.symm, by omega⟩
      have hn13m : ∀ a ∈ rest, (-13 : ℤ) ≠ a ∧ (-13 : ℤ) ≠ -a := by
        intro a ha
        have hha := hrest_wf a ha
        exact ⟨by omega, fun hc => hha.2 (by omega)⟩
      rcases List.mem_cons.mp hal with hal0 | halr
      · subst hal0
        obtain ⟨pq, pk⟩ := alias_fold_preserve rest st1 st hrest_wf h
        have hn1 : ∀ a ∈ rest, al ≠ a ∧ al ≠ -a := by
          intro a ha
          have hha := hrest_wf a ha
          refine ⟨fun hc => hnotin (hc ▸ ha), by omega⟩
        have hn2 : ∀ a ∈ rest, -al ≠ a ∧ -al ≠ -a := by
          intro a ha
          have hha := hrest_wf a ha
          refine ⟨by omega, fun hc => ?_⟩
          have hc2 : al = a := by omega
          exact hnotin (hc2 ▸ ha)
        refine ⟨l13, lm13, h13, hm13, ?_, ?_, ?_, ?_, ?_, ?_⟩
        · rw [pq al hn1]; exact hal1
        · rw [pq (-al) hn2]; exact halm1
        · rw [pq 13 hn13]; exact h13p
        · rw [pq (-13) hn13m]; exact hm13p
        · intro da hda
          constructor
          · rw [pk (al, da) hn1]
            exact hc1 da hda
          · rw [pk (13, da) hn13]
            rw [hk1 (13, da) (fun hc => hwf0.2 hc.symm) (by omega)]
        · intro da hda
          constructor
          · rw [pk (-al, da) hn2]
            exact hc2 da hda
          · rw [pk (-13, da) hn13m]
            rw [hk1 (-13, da) (by omega) (by omega)]
      · obtain ⟨l13i, lm13i, hi13, him13, hial, hialm, hi13p, him13p, hic1, hic2⟩ :=
          ih st1 st hrest_wf (List.nodup_cons.mp hnd).2 h al halr
        have hleq : l13i = l13 := by
          rw [h13p] at hi13
          injection hi13 with h1
          exact h1.symm
        have hmeq : lm13i = lm13 := by
          rw [hm13p] at him13
          injection him13 with h1
          exact h1.symm
        subst hleq
        subst hmeq
        refine ⟨l13i, lm13i, h13, hm13, hial, hialm, hi13p, him13p, ?_, ?_⟩
        · intro da hda
          have hbase : st1.2 (13, da) = st0b (13, da) :=
            hk1 (13, da) (fun hc => hwf0.2 hc.symm) (by omega)
          exact ⟨(hic1 da hda).1.trans hbase, (hic1 da hda).2.trans hbase⟩
        · intro da hda
          have hbase : st1.2 (-13, da) = st0b (-13, da) :=
            hk1 (-13, da) (by omega) (by omega)
          exact ⟨(hic2 da hda).1.trans hbase, (hic2 da hda).2.trans hbase⟩

/-- Claim C6: after decay-index construction, each scoring alias in
`{7013, 7113, 7213}` (and its charge conjugate) has exactly the daughter
sequence of the canonical muon `13` (resp. `-13`), in the same order, and
`get_d_matrix(alias, d)` is identical to `get_d_matrix(13, d)` (resp.
conjugates) for every daughter `d`. -/
theorem decay_alias_inheritance {n : ℕ} (dl : RecList n) (w : Mat n) (al : ℤ)
    (hal : al ∈ [(7013 : ℤ), 7113, 7213])
    (hs : (gen_index_decay dl).isSome = true) :
    daughters_of (gen_index_decay dl) al = daughters_of (gen_index_decay dl) 13
      ∧ daughters_of (gen_index_decay dl) (-al)
          = daughters_of (gen_index_decay dl) (-13)
      ∧ (∀ da ∈ daughters_of (gen_index_decay dl) al,
          get_d_matrix_of (gen_index_decay dl) w al da
            = get_d_matrix_of (gen_index_decay dl) w 13 da)
      ∧ (∀ da ∈ daughters_of (gen_index_decay dl) (-al),
          get_d_matrix_of (gen_index_decay dl) w (-al) da
            = get_d_matrix_of (gen_index_decay dl) w (-13) da) := by
  cases hgn : gen_index_decay dl with
  | none =>
    rw [hgn] at hs
    simp at hs
  | some st =>
    unfold gen_index_decay at hgn
    split at hgn
    · exact absurd hgn (by simp)
    · obtain ⟨l13, lm13, h013, h0m13, hal1, halm1, h13, hm13, hmat1, hmat2⟩ :=
        alias_fold_mem [7013, 7113, 7213] _ st (by decide) (by decide) hgn al hal
      refine ⟨?_, ?_, ?_, ?_⟩
      · show (st.1 al).getD [] = (st.1 13).getD []
        rw [hal1, h13]
      · show (st.1 (-al)).getD [] = (st.1 (-13)).getD []
        rw [halm1, hm13]
      · intro da hda
        have hda13 : da ∈ l13 := by
          have : daughters_of (some st) al = l13 := by
            show (st.1 al).getD [] = l13
            rw [hal1]
            rfl
          rw [this] at hda
          exact hda
        have heq : st.2 (al, da) = st.2 (13, da) :=
          ((hmat1 da hda13).1).trans ((hmat1 da hda13).2).symm
        show (st.2 (al, da)).map _ = (st.2 (13, da)).map _
        rw [heq]
      · intro da hda
        have hda13 : da ∈ lm13 := by
          have : daughters_of (some st) (-al) = lm13 := by
            show (st.1 (-al)).getD [] = lm13
            rw [halm1]
            rfl
          rw [this] at hda
          exact hda
        have heq : st.2 (-al, da) = st.2 (-13, da) :=
          ((hmat2 da hda13).1).trans ((hmat2 da hda13).2).symm
        show (st.2 (-al, da)).map _ = (st.2 (-13, da)).map _
        rw [heq]

/-- A decay table with one muon and one antimuon channel. -/
def exDl : RecList 1 := [((13, 14), exOneMat), ((-13, -14), exOneMat)]

/-- Witness for C6: on a concrete decay table the alias `7013` inherits the
muon daughter list and matrices. -/
theorem decay_alias_inheritance_witness :
    daughters_of (gen_index_decay exDl) 7013 = daughters_of (gen_index_decay exDl) 13
      ∧ ∀ da ∈ daughters_of (gen_index_decay exDl) 7013,
          get_d_matrix_of (gen_index_decay exDl) (weightsOf exEbins) 7013 da
            = get_d_matrix_of (gen_index_decay exDl) (weightsOf exEbins) 13 da :=
  ⟨(decay_alias_inheritance exDl (weightsOf exEbins) 7013 (by decide) (by decide)).1,
    (decay_alias_inheritance exDl (weightsOf exEbins) 7013 (by decide)
      (by decide)).2.2.1⟩

theorem decay_loop_nodup {n : ℕ} :
    ∀ (dl : RecList n) (dd : ℤ → Option (List ℤ)),
      (∀ m l, dd m = some l → l.Nodup) →
      ∀ m l, decay_loop dl dd m = some l → l.Nodup := by
  intro dl
  induction dl with
  | nil =>
    intro dd h m l hm
    rw [decay_loop] at hm
    exact h m l hm
  | cons e rest ih =>
    intro dd h m l hm
    obtain ⟨⟨mo, da⟩, mat⟩ := e
    rw [decay_loop] at hm
    by_cases hc : 0 < matSum mat
    · rw [if_pos hc] at hm
      cases hmo : dd mo with
      | none =>
        rw [hmo] at hm
        dsimp only at hm
        exact ih dd h m l hm
      | some l0 =>
        rw [hmo] at hm
        dsimp only at hm
        by_cases hda : da ∈ l0
        · rw [if_pos hda] at hm
          exact ih dd h m l hm
        · rw [if_neg hda] at hm
          refine ih _ ?_ m l hm
          intro m' l' hm'
          unfold updOpt at hm'
          by_cases hmm : m' = mo
          · rw [if_pos hmm] at hm'
            injection hm' with h1
            rw [← h1]
            simp only [List.nodup_append, List.nodup_singleton]
            refine ⟨h mo l0 hmo, trivial, ?_⟩
            intro x hx hx2
            rw [List.mem_singleton.mp hx2] at hx
            exact hda hx
          · rw [if_neg hmm] at hm'
            exact h m' l' hm'
    · rw [if_neg hc] at hm
      exact ih dd h m l hm

theorem alias_step_lists {n : ℕ}
    {dd : ℤ → Option (List ℤ)} {dm : (ℤ × ℤ) → Option (Mat n)} {al : ℤ}
    {st' : (ℤ → Option (List ℤ)) × ((ℤ × ℤ) → Option (Mat n))}
    (hpos : 0 < al) (hne13 : al ≠ 13)
    (h : alias_step (dd, dm) al = some st') :
    ∀ q l, st'.1 q = some l → ∃ q0, dd q0 = some l := by
  obtain ⟨l13, lm13, h13, hm13, hal1, halm1, hq1, _, _, _⟩ :=
    alias_step_spec hpos hne13 h
  intro q l hq
  by_cases hqa : q = al
  · rw [hqa, hal1] at hq
    injection hq with hq
    exact ⟨13, by rw [h13, hq]⟩
  · by_cases hqm : q = -al
    · rw [hqm, halm1] at hq
      injection hq with hq
      exact ⟨-13, by rw [hm13, hq]⟩
    · rw [hq1 q hqa hqm] at hq
      exact ⟨q, hq⟩

theorem alias_fold_lists {n : ℕ} :
    ∀ (al_list : List ℤ)
      (st0 st : (ℤ → Option (List ℤ)) × ((ℤ × ℤ) → Option (Mat n))),
      (∀ a ∈ al_list, 0 < a ∧ a ≠ 13) →
      alias_fold al_list st0 = some st →
      ∀ q l, st.1 q = some l → ∃ q0, st0.1 q0 = some l := by
  intro al_list
  induction al_list with
  | nil =>
    intro st0 st _ h q l hq
    rw [alias_fold] at h
    injection h with h
    rw [← h] at hq
    exact ⟨q, hq⟩
  | cons al0 rest ih =>
    intro st0 st hwf h q l hq
    rw [alias_fold] at h
    cases hst1 : alias_step st0 al0 with
    | none =>
      rw [hst1] at h
      exact absurd h (by simp)
    | some st1 =>
      rw [hst1] at h
      simp only [Option.some_bind] at h
      obtain ⟨q1, hq1⟩ := ih st1 st (fun a ha => hwf a (by simp [ha])) h q l hq
      obtain ⟨st0a, st0b⟩ := st0
      exact alias_step_lists (hwf al0 (by simp)).1 (hwf al0 (by simp)).2 hst1 q1 l hq1

theorem gen_index_loop_registered {n : ℕ} :
    ∀ (ys : RecList n) (dd dd' : ℤ → List ℤ) (p s : ℤ) (m : Mat n),
      ((p, s), m) ∈ ys → 0 < matSum m → ¬(s.natAbs = 11 ∨ s.natAbs = 22) →
      gen_index_loop ys dd = some dd' → s ∈ dd' p := by
  intro ys
  induction ys with
  | nil =>
    intro dd dd' p s m hm
    simp at hm
  | cons e rest ih =>
    intro dd dd' p s m hmem hsum hem h
    obtain ⟨⟨proj, sec⟩, mat⟩ := e
    rw [gen_index_loop] at h
    rcases List.mem_cons.mp hmem with h1 | h1
    · have hps : proj = p ∧ sec = s ∧ mat = m := by
        injection h1 with h2 h3
        injection h2 with h4 h5
        exact ⟨h4.symm, h5.symm, h3.symm⟩
      obtain ⟨hp, hsec, hmat⟩ := hps
      subst hp
      subst hsec
      subst hmat
      rw [if_pos ⟨hsum, hem⟩] at h
      by_cases hin : sec ∈ dd proj
      · rw [if_pos hin] at h
        exact absurd h (by simp)
      · rw [if_neg hin] at h
        refine gen_index_loop_mono rest _ _ h proj sec ?_
        unfold upd
        rw [if_pos rfl]
        simp
    · split at h
      · by_cases hin : sec ∈ dd proj
        · rw [if_pos hin] at h
          exact absurd h (by simp)
        · rw [if_neg hin] at h
          exact ih _ _ p s m h1 hsum hem h
      · exact ih _ _ p s m h1 hsum hem h

/-- A decay table in which the non-trivial key (13, 14) is registered
twice. -/
def exDlDup : RecList 1 :=
  [((13, 14), exOneMat), ((13, 14), exOneMat), ((-13, -14), exOneMat)]

/-- Counterexample to the original C8: the claim says duplicate registration
of a non-trivial record is a hard, fatal error for the decay index too, but
`DecayYields._gen_index` (data.py lines 572-573) guards the append with
`if d not in self.daughter_dict[p]` instead of asserting, so on the table
that registers (13, 14) twice the build succeeds and the duplicate is
silently dropped: the daughter 14 appears exactly once. -/
theorem decay_duplicate_silent_dedup_cex :
    (gen_index_decay exDlDup).isSome = true
      ∧ daughters_of (gen_index_decay exDlDup) 13 = [14]
      ∧ is_daughter_of (gen_index_decay exDlDup) 13 14 = true := by
  decide

/-- Claim C8 (corrected): duplicate registration of a non-trivial product
for the same source is fatal in the interaction index (the assertion at
data.py line 358 fires and nothing is returned), whereas the decay index
builder silently deduplicates rather than aborting (see the counterexample);
after any successful index construction - interaction or decay - no product
appears twice in any source's product list and every listed product passes
the corresponding existence check (`is_yield`, `is_daughter`). -/
theorem index_duplicate_integrity :
    (∀ (n : ℕ) (ys : RecList n) (pr : ℤ),
        (gen_index ys).isSome = true →
        (secondariesOf (gen_index ys) pr).Nodup
          ∧ ∀ sc ∈ secondariesOf (gen_index ys) pr,
              is_yield_of (gen_index ys) pr sc = true)
      ∧ (∀ (n : ℕ) (ys1 ys2 ys3 : RecList n) (k : ℤ × ℤ) (m1 m2 : Mat n),
          0 < matSum m1 → 0 < matSum m2 →
          ¬(k.2.natAbs = 11 ∨ k.2.natAbs = 22) →
          gen_index (ys1 ++ (k, m1) :: ys2 ++ (k, m2) :: ys3) = none)
      ∧ (∀ (n : ℕ) (dl : RecList n) (mo : ℤ),
          (gen_index_decay dl).isSome = true →
          (daughters_of (gen_index_decay dl) mo).Nodup
            ∧ ∀ da ∈ daughters_of (gen_index_decay dl) mo,
                is_daughter_of (gen_index_decay dl) mo da = true) := by
  refine ⟨?_, ?_, ?_⟩
  · intro n ys pr hsome
    cases hgi : gen_index ys with
    | none =>
      rw [hgi] at hsome
      simp at hsome
    | some pair =>
      obtain ⟨projs, dd⟩ := pair
      unfold gen_index at hgi
      split at hgi
      · exact absurd hgi (by simp)
      · obtain ⟨dd1, hdd1, hpair⟩ := Option.map_eq_some'.mp hgi
        have hdd : dd1 = dd := by
          injection hpair with h1 h2
        have hprojs : (ys.map fun e => e.1.1).dedup = projs := by
          injection hpair with h1 h2
        constructor
        · show (dd pr).Nodup
          rw [← hdd]
          exact gen_index_loop_nodup ys _ _ hdd1 (fun _ => List.nodup_nil) pr
        · intro sc hsc
          have hsc' : sc ∈ dd1 pr := by
            rw [hdd]
            exact hsc
          rcases gen_index_loop_mem ys _ _ hdd1 pr sc hsc' with h2 | ⟨m, hm⟩
          · simp at h2
          · have hpr : pr ∈ projs := by
              rw [← hprojs]
              rw [List.mem_dedup]
              exact List.mem_map.mpr ⟨((pr, sc), m), hm, rfl⟩
            simp [is_yield_of, hpr]
            exact hsc
  · intro n ys1 ys2 ys3 k m1 m2 hm1 hm2 hem
    unfold gen_index
    rw [if_neg (by simp)]
    obtain ⟨kp, ks⟩ := k
    have hloop : gen_index_loop (ys1 ++ ((kp, ks), m1) :: ys2 ++ ((kp, ks), m2) :: ys3)
        (fun _ => ([] : List ℤ)) = none := by
      rw [gen_index_loop_append (ys1 ++ ((kp, ks), m1) :: ys2) (((kp, ks), m2) :: ys3)]
      cases h1 : gen_index_loop (ys1 ++ ((kp, ks), m1) :: ys2) (fun _ => ([] : List ℤ)) with
      | none => rfl
      | some dd1 =>
        simp only [Option.some_bind]
        have hreg : ks ∈ dd1 kp :=
          gen_index_loop_registered _ _ _ kp ks m1 (by simp) hm1 hem h1
        rw [gen_index_loop, if_pos ⟨hm2, hem⟩, if_pos hreg]
    rw [hloop]
    rfl
  · intro n dl mo hsome
    cases hgi : gen_index_decay dl with
    | none =>
      rw [hgi] at hsome
      simp at hsome
    | some st =>
      obtain ⟨sta, stb⟩ := st
      unfold gen_index_decay at hgi
      split at hgi
      · exact absurd hgi (by simp)
      · constructor
        · show ((sta mo).getD []).Nodup
          cases hmo : sta mo with
          | none => simp
          | some l =>
            obtain ⟨q0, hq0⟩ :=
              alias_fold_lists [7013, 7113, 7213] _ (sta, stb) (by decide) hgi mo l hmo
            have hnd := decay_loop_nodup dl
              (fun m => if m ∈ (dl.map fun e => e.1.1).dedup then some [] else none)
              (fun m' l' hm' => by
                have hm2 : (if m' ∈ (dl.map fun e => e.1.1).dedup
                    then some ([] : List ℤ) else none) = some l' := hm'
                by_cases hmm : m' ∈ (dl.map fun e => e.1.1).dedup
                · rw [if_pos hmm] at hm2
                  injection hm2 with h1
                  rw [← h1]
                  exact List.nodup_nil
                · rw [if_neg hmm] at hm2
                  exact absurd hm2 (by simp))
              q0 l hq0
            simpa using hnd
        · intro da hda
          show is_daughter_of (some (sta, stb)) mo da = true
          have hda2 : da ∈ (sta mo).getD [] := hda
          unfold is_daughter_of
          dsimp only
          cases hmo : sta mo with
          | none =>
            rw [hmo] at hda2
            simp at hda2
          | some l =>
            rw [hmo] at hda2
            simp only [Option.getD_some] at hda2
            simp [hda2]

/-- Witness for C8: a concrete duplicate-key table is rejected by the
interaction index builder, and a concrete well-formed table satisfies the
integrity invariant. -/
theorem index_duplicate_integrity_witness :
    gen_index (([] : RecList 1)
        ++ ((2212, 321), exOneMat) :: ([] : RecList 1)
        ++ ((2212, 321), exOneMat) :: ([] : RecList 1)) = none
      ∧ (secondariesOf (gen_index exYsPos) 2212).Nodup :=
  ⟨index_duplicate_integrity.2.1 1 [] [] [] (2212, 321) exOneMat exOneMat
      (by decide) (by decide) (by decide),
    (index_duplicate_integrity.1 1 exYsPos 2212 (by decide)).1⟩

/-! State of an `InteractionYields` object.  Python dictionaries are heap
objects: `self.yields` aliases an entry of `self.yield_dict` after
`set_interaction_model`, and `inject_custom_charm_model` takes a shallow
`copy()` before overwriting records.  To express this aliasing faithfully
the record dictionaries live in an explicit store addressed by references;
`copy()` allocates a fresh reference. -/

structure IYState (n : ℕ) where
  store : ℕ → RecList n
  nextRef : ℕ
  yield_dict : List (String × ℕ)
  yieldsRef : ℕ
  iam : String
  charm_model : Option String
  nspec : ℕ
  projectiles : List ℤ
  secondary_dict : ℤ → List ℤ
  weights : Mat n

/-- Python `dict[key]` lookup over the model-name dictionary. -/
def lookupStr (k : String) : List (String × ℕ) → Option ℕ
  | [] => none
  | (k', v) :: rest => if k' = k then some v else lookupStr k rest

/-- `InteractionYields.set_interaction_model`: a no-op when the model is
already loaded and `force` is unset; otherwise raises (`none`) for an
unknown model name, rebuilds the index through `_gen_index` and points
`self.yields` at the model's record dictionary. -/
def set_interaction_model {n : ℕ} (s : IYState n) (im : String) (force : Bool) :
    Option (IYState n) :=
  if ¬force ∧ im = s.iam then some s
  else
    match lookupStr im s.yield_dict with
    | none => none
    | some r =>
      match gen_index (s.store r) with
      | none => none
      | some pr =>
        some { s with projectiles := pr.1, secondary_dict := pr.2,
                      nspec := pr.1.length, yieldsRef := r, iam := im,
                      charm_model := none }

/-- Python dict assignment over the association list: replace the value of
an existing key in place, else append. -/
def dictInsert {n : ℕ} (k : ℤ × ℤ) (v : Mat n) : RecList n → RecList n
  | [] => [(k, v)]
  | (k', v') :: rest => if k' = k then (k, v) :: rest else (k', v') :: dictInsert k v rest

/-- Scalar multiple of a matrix. -/
def matScale {n : ℕ} (c : ℚ) (A : Mat n) : Mat n := Matrix.of fun i j => qmul c (A i j)

/-- `self.yields = copy(self.yields)`: allocate a fresh reference holding
the same record list (a shallow copy) and repoint `self.yields` at it. -/
def copyYields {n : ℕ} (s : IYState n) : IYState n :=
  { s with store := fun k => if k = s.nextRef then s.store s.yieldsRef else s.store k,
           nextRef := s.nextRef + 1, yieldsRef := s.nextRef }

/-- The replacement records computed by the model branches of
`inject_custom_charm_model`, in loop order.  `MRS` uses the external
`MRS_charm.get_yield_matrix`, abstracted as `mm`; `sibyll23_pl` reads the
`SIBYLL2.3_rc1_pl` table and rescales by the external cross-section ratio
diagonal (`csf`) times `14.5`; any other name raises
`NotImplementedError`. -/
def charmEntries {n : ℕ} (s : IYState n) (mdl : String) (cm : List ℤ)
    (mm : ℤ → ℤ → Mat n) (csf : ℤ → Mat n) : Option (RecList n) :=
  if mdl = "MRS" then
    some (s.projectiles.flatMap fun proj => cm.map fun chid => ((proj, chid), mm proj chid))
  else if mdl = "sibyll23_pl" then
    match lookupStr "SIBYLL2.3_rc1_pl" s.yield_dict with
    | none => none
    | some rpl =>
      (s.projectiles.flatMap fun proj => cm.map fun chid => (proj, chid)).mapM fun pc =>
        (assocLookup pc (s.store rpl)).map fun M =>
          (pc, matScale (Rat.divInt 29 2) (matMul M (csf pc.1)))
  else none

/-- Write the replacement records into the dictionary `self.yields` points
at (the fresh copy). -/
def insertEntries {n : ℕ} (s : IYState n) (entries : RecList n) : IYState n :=
  { s with store := fun k => if k = s.yieldsRef
      then entries.foldl (fun acc e => dictInsert e.1 e.2 acc) (s.store s.yieldsRef)
      else s.store k }

/-- The final `self._gen_index(self.yields); self.charm_model = model` of
`inject_custom_charm_model`. -/
def regenIndex {n : ℕ} (s : IYState n) (mdl : String) : Option (IYState n) :=
  match gen_index (s.store s.yieldsRef) with
  | none => none
  | some pr =>
    some { s with projectiles := pr.1, secondary_dict := pr.2, charm_model := some mdl }

/-- `InteractionYields.inject_custom_charm_model`: restore the base model if
a different submodel is already injected, take a shallow copy of the active
record dictionary, overwrite the charm records in the copy, and rebuild the
index. -/
def inject_custom_charm_model {n : ℕ} (s : IYState n) (model : Option String)
    (cm : List ℤ) (mm : ℤ → ℤ → Mat n) (csf : ℤ → Mat n) : Option (IYState n) :=
  match model with
  | none => some s
  | some mdl =>
    (if s.charm_model ≠ none ∧ s.charm_model ≠ some mdl
      then set_interaction_model s s.iam true else some s).bind fun s0 =>
      (charmEntries (copyYields s0) mdl cm mm csf).bind fun entries =>
        regenIndex (insertEntries (copyYields s0) entries) mdl

theorem lookupStr_mem {k : String} {v : ℕ} :
    ∀ {l : List (String × ℕ)}, lookupStr k l = some v → (k, v) ∈ l := by
  intro l
  induction l with
  | nil =>
    intro h
    simp [lookupStr] at h
  | cons e rest ih =>
    intro h
    obtain ⟨k', v'⟩ := e
    rw [lookupStr] at h
    by_cases hk : k' = k
    · rw [if_pos hk] at h
      injection h with h1
      simp [hk, h1]
    · rw [if_neg hk] at h
      simp [ih h]

theorem set_interaction_model_frame {n : ℕ} {s s' : IYState n} {im : String}
    {force : Bool} (h : set_interaction_model s im force = some s') :
    s'.store = s.store ∧ s'.nextRef = s.nextRef ∧ s'.yield_dict = s.yield_dict
      ∧ s'.weights = s.weights ∧ (s'.iam = s.iam ∨ s'.iam = im) := by
  unfold set_interaction_model at h
  split at h
  · injection h with h1
    rw [← h1]
    exact ⟨rfl, rfl, rfl, rfl, Or.inl rfl⟩
  · cases hr : lookupStr im s.yield_dict with
    | none => rw [hr] at h; exact absurd h (by simp)
    | some r =>
      rw [hr] at h
      dsimp only at h
      cases hg : gen_index (s.store r) with
      | none => rw [hg] at h; exact absurd h (by simp)
      | some pr =>
        rw [hg] at h
        dsimp only at h
        injection h with h1
        rw [← h1]
        exact ⟨rfl, rfl, rfl, rfl, Or.inr rfl⟩

theorem set_interaction_model_force {n : ℕ} {s s' : IYState n} {im : String}
    (h : set_interaction_model s im true = some s') :
    ∃ r pr, lookupStr im s.yield_dict = some r ∧ gen_index (s.store r) = some pr
      ∧ s' = { s with projectiles := pr.1, secondary_dict := pr.2,
                      nspec := pr.1.length, yieldsRef := r, iam := im,
                      charm_model := none } := by
  unfold set_interaction_model at h
  rw [if_neg (by simp)] at h
  cases hr : lookupStr im s.yield_dict with
  | none => rw [hr] at h; exact absurd h (by simp)
  | some r =>
    rw [hr] at h
    dsimp only at h
    cases hg : gen_index (s.store r) with
    | none => rw [hg] at h; exact absurd h (by simp)
    | some pr =>
      rw [hg] at h
      dsimp only at h
      injection h with h1
      exact ⟨r, pr, rfl, hg, h1.symm⟩

theorem inject_frame {n : ℕ} {s s1 : IYState n} {mdl : String} {cm : List ℤ}
    {mm : ℤ → ℤ → Mat n} {csf : ℤ → Mat n}
    (h : inject_custom_charm_model s (some mdl) cm mm csf = some s1) :
    s1.yield_dict = s.yield_dict ∧ s1.weights = s.weights ∧ s1.iam = s.iam
      ∧ ∀ r, r < s.nextRef → s1.store r = s.store r := by
  unfold inject_custom_charm_model at h
  dsimp only at h
  have main : ∀ s0 : IYState n, s0.store = s.store → s0.nextRef = s.nextRef →
      s0.yield_dict = s.yield_dict → s0.weights = s.weights → s0.iam = s.iam →
      ((charmEntries (copyYields s0) mdl cm mm csf).bind fun entries =>
          regenIndex (insertEntries (copyYields s0) entries) mdl) = some s1 →
      s1.yield_dict = s.yield_dict ∧ s1.weights = s.weights ∧ s1.iam = s.iam
        ∧ ∀ r, r < s.nextRef → s1.store r = s.store r := by
    intro s0 hst hnr hyd hw hiam0 hb
    cases hE : charmEntries (copyYields s0) mdl cm mm csf with
    | none => rw [hE] at hb; exact absurd hb (by simp)
    | some entries =>
      rw [hE] at hb
      simp only [Option.some_bind] at hb
      unfold regenIndex at hb
      cases hg : gen_index ((insertEntries (copyYields s0) entries).store
          (insertEntries (copyYields s0) entries).yieldsRef) with
      | none => rw [hg] at hb; exact absurd hb (by simp)
      | some pr =>
        rw [hg] at hb
        dsimp only at hb
        injection hb with hb1
        rw [← hb1]
        refine ⟨hyd, hw, hiam0, ?_⟩
        intro r hr
        show (insertEntries (copyYields s0) entries).store r = s.store r
        unfold insertEntries copyYields
        dsimp only
        rw [if_neg (by omega), if_neg (by omega)]
        exact congrFun hst r
  by_cases hc : s.charm_model ≠ none ∧ s.charm_model ≠ some mdl
  · rw [if_pos hc] at h
    cases hs0 : set_interaction_model s s.iam true with
    | none => rw [hs0] at h; exact absurd h (by simp)
    | some s0 =>
      rw [hs0] at h
      simp only [Option.some_bind] at h
      obtain ⟨hst, hnr, hyd, hw, hiam0⟩ := set_interaction_model_frame hs0
      exact main s0 hst hnr hyd hw (by rcases hiam0 with h1 | h1 <;> exact h1) h
  · rw [if_neg hc] at h
    simp only [Option.some_bind] at h
    exact main s rfl rfl rfl rfl rfl h

theorem setIM_true_eq {n : ℕ} (s : IYState n) (im : String) :
    set_interaction_model s im true
      = match lookupStr im s.yield_dict with
        | none => none
        | some r =>
          match gen_index (s.store r) with
          | none => none
          | some pr =>
            some { s with projectiles := pr.1, secondary_dict := pr.2,
                          nspec := pr.1.length, yieldsRef := r, iam := im,
                          charm_model := none } := by
  unfold set_interaction_model
  rw [if_neg (by simp)]

/-- Claim C4: injecting a charm submodel never mutates the base yield
dictionary in place - the shallow copy is taken before any record is
overwritten, so every table registered in `yield_dict` is bit-identical
after injection - and reloading the base model with
`set_interaction_model(name, force := true)` afterwards yields exactly the
record dictionary (and bin-width weights, hence yield matrices) of a table
that never had injection applied. -/
theorem inject_charm_roundtrip {n : ℕ} (s : IYState n) (mdl : String) (cm : List ℤ)
    (mm : ℤ → ℤ → Mat n) (csf : ℤ → Mat n) (r0 : ℕ)
    (wf : ∀ e ∈ s.yield_dict, e.2 < s.nextRef)
    (hiam : lookupStr s.iam s.yield_dict = some r0)
    (hinj : (inject_custom_charm_model s (some mdl) cm mm csf).isSome = true) :
    (inject_custom_charm_model s (some mdl) cm mm csf).map (fun s1 => s1.yield_dict)
        = some s.yield_dict
      ∧ (∀ e ∈ s.yield_dict,
          (inject_custom_charm_model s (some mdl) cm mm csf).map
              (fun s1 => s1.store e.2)
            = some (s.store e.2))
      ∧ ((inject_custom_charm_model s (some mdl) cm mm csf).bind
            fun s1 => set_interaction_model s1 s.iam true).map
              (fun s2 => (s2.store s2.yieldsRef, s2.weights))
          = (set_interaction_model s s.iam true).map
              (fun s3 => (s3.store s3.yieldsRef, s3.weights)) := by
  obtain ⟨s1, hs1⟩ := Option.isSome_iff_exists.mp hinj
  obtain ⟨hyd, hw, hiam1, hstore⟩ := inject_frame hs1
  rw [hs1]
  refine ⟨by simp [hyd], ?_, ?_⟩
  · intro e he
    simp only [Option.map_some']
    rw [hstore e.2 (wf e he)]
  · simp only [Option.some_bind]
    have hiam1' : lookupStr s.iam s1.yield_dict = some r0 := by
      rw [hyd]
      exact hiam
    have hr0lt : r0 < s.nextRef := wf _ (lookupStr_mem hiam)
    have hstr0 : s1.store r0 = s.store r0 := hstore r0 hr0lt
    rw [setIM_true_eq, setIM_true_eq, hiam1', hiam]
    dsimp only
    rw [hstr0]
    cases hg : gen_index (s.store r0) with
    | none => rfl
    | some pr =>
      dsimp only
      simp only [Option.map_some']
      rw [hstr0, hw]

/-- Heap of the concrete `InteractionYields` state: one base table at
reference 0. -/
def exIYStore : ℕ → RecList 1 := fun k => if k = 0 then exYsPos else []

/-- A concrete `InteractionYields` state with one loaded model. -/
def exIY : IYState 1 :=
  { store := exIYStore, nextRef := 1, yield_dict := [("SIB", 0)], yieldsRef := 0,
    iam := "SIB", charm_model := none, nspec := 1, projectiles := [2212],
    secondary_dict := fun _ => [321], weights := weightsOf exEbins }

/-- Witness for C4: a concrete MRS injection round-trips to the pristine
reload. -/
theorem inject_charm_roundtrip_witness :
    ((inject_custom_charm_model exIY (some "MRS") [421] (fun _ _ => exOneMat)
          (fun _ => exOneMat)).bind
        fun s1 => set_interaction_model s1 exIY.iam true).map
          (fun s2 => (s2.store s2.yieldsRef, s2.weights))
      = (set_interaction_model exIY exIY.iam true).map
          (fun s3 => (s3.store s3.yieldsRef, s3.weights)) :=
  (inject_charm_roundtrip exIY "MRS" [421] (fun _ _ => exOneMat) (fun _ => exOneMat) 0
    (by decide) (by decide) (by decide)).2.2

/-- Unit constant GeV*fm = 0.19732696312541853 (data.py line 678). -/
def GeVfm : ℚ := Rat.divInt 19732696312541853 100000000000000000

/-- Unit constant GeV*cm = GeVfm * 1e-13 (data.py line 680). -/
def GeVcm : ℚ := qmul GeVfm (Rat.divInt 1 10000000000000)

/-- Unit constant GeV^2*mbarn = 10 * GeVfm^2 (data.py line 682). -/
def GeV2mbarn : ℚ := qmul 10 (qmul GeVfm GeVfm)

/-- Unit conversion mbarn -> cm^2 = GeVcm^2 / GeV2mbarn (data.py line 684). -/
def mbarn2cm2 : ℚ := qdiv (qmul GeVcm GeVcm) GeV2mbarn

/-- `HadAirCrossSections.get_cs` (data.py lines 747-788) over an abstract
cross-section dictionary `cs` (a partial map from PDG id to energy-grid
curve; a missing key on lookup is a KeyError, modelled as `none`).
Branches in source order.  Note line 767/768: membership is tested on
`abs(projectile)` but the lookup uses the SIGNED `projectile`.  The lepton
branch returns the scalar `0.`, which numpy broadcasts to the grid length
`d`, modelled as `List.replicate d 0`. -/
def getCs (cs : ℤ → Option (List ℚ)) (d : ℕ) (projectile : ℤ) (mbarn : Bool) :
    Option (List ℚ) :=
  let scale : ℚ := if mbarn then 1 else mbarn2cm2
  if (cs (projectile.natAbs : ℤ)).isSome then
    (cs projectile).map (fun l => l.map (qmul scale))
  else if projectile.natAbs = 411 ∨ projectile.natAbs = 421 ∨
      projectile.natAbs = 431 ∨ projectile.natAbs = 15 then
    (cs 321).map (fun l => l.map (qmul scale))
  else if projectile.natAbs = 4332 ∨ projectile.natAbs = 4232 ∨
      projectile.natAbs = 4132 then
    (cs 2212).map (fun l => l.map (qmul scale))
  else if 2000 < projectile.natAbs ∧ projectile.natAbs < 5000 then
    (cs 2212).map (fun l => l.map (qmul scale))
  else if (11 < projectile.natAbs ∧ projectile.natAbs < 17) ∨
      (7000 < projectile.natAbs ∧ projectile.natAbs < 7500) then
    some (List.replicate d 0)
  else
    (cs 211).map (fun l => l.map (qmul scale))

/-- A concrete cross-section dictionary with curves for exactly the pion
(211), kaon (321) and proton (2212), on a one-point energy grid. -/
def csTbl : ℤ → Option (List ℚ) :=
  fun k => if k = 211 then some [3]
    else if k = 321 then some [5]
    else if k = 2212 then some [7]
    else none

/-- Claim C2: the fallback chain of get_cs is reproduced on every band
(D mesons and tau to the kaon curve, charm baryons and 2000 < pdg < 5000 to
the proton curve, leptons and 7000 < pdg < 7500 to zero, everything else to
the pion curve, a tabulated id to its own curve) - but the claim's
"never raises" is false: for the negative pion -211, whose absolute value
is tabulated but whose signed id is not a key, the membership test on
abs(projectile) passes and the signed lookup `self.cs[projectile]` raises
KeyError (first conjunct, `none`), instead of returning the pion curve. -/
theorem get_cs_fallback_bug :
    getCs csTbl 1 (-211) true = none
      ∧ getCs csTbl 1 211 true = some [3]
      ∧ getCs csTbl 1 411 true = some [5]
      ∧ getCs csTbl 1 (-15) true = some [5]
      ∧ getCs csTbl 1 (-4132) true = some [7]
      ∧ getCs csTbl 1 3000 true = some [7]
      ∧ getCs csTbl 1 14 true = some [0]
      ∧ getCs csTbl 1 7100 true = some [0]
      ∧ getCs csTbl 1 130 true = some [3]
      ∧ getCs csTbl 1 211 false
          = some [Rat.divInt 3 1000000000000000000000000000] := by
  refine ⟨rfl, rfl, rfl, rfl, rfl, rfl, rfl, rfl, rfl, ?_⟩
  show some [qmul mbarn2cm2 3] = _
  rw [show qmul mbarn2cm2 3 = mbarn2cm2 * 3 from qmul_eq mbarn2cm2 3]
  norm_num [mbarn2cm2, GeVcm, GeV2mbarn, GeVfm, qmul_eq, qdiv_eq, Rat.divInt_eq_div]
